import Mathlib

/-!
Verification of the provider-unification layer in `src/index.ts`.

Strings of the JavaScript source are embedded as `List Char`; JSON values as
the inductive `Json`; the external `JSON.parse` of the JavaScript runtime is a
parameter `parse : Str → Option Json` of every function that calls it, and the
theorems that need facts about real JSON state them as hypotheses on `parse`.
-/

namespace LLMUnify

/-- JavaScript strings are embedded as lists of characters. -/
abbrev Str := List Char

/-- The newline character used by the server-sent-event framing. -/
def nlc : Char := '\n'

/-- Boolean string-prefix test (structural, used instead of the BEq version). -/
def prefixOfB : Str → Str → Bool
  | [], _ => true
  | _ :: _, [] => false
  | a :: as, b :: bs => a = b && prefixOfB as bs

/-- JavaScript `hay.includes(needle)` : substring containment test. -/
def containsSub (needle : Str) : Str → Bool
  | [] => needle.isEmpty
  | c :: rest => prefixOfB needle (c :: rest) || containsSub needle rest

/-- Whitespace as stripped by JavaScript `String.prototype.trim`. -/
def isWS (c : Char) : Bool := c = ' ' || c = '\n' || c = '\t' || c = '\r'

/-- Left trim: drop leading whitespace. -/
def trimL (s : Str) : Str := s.dropWhile isWS

/-- Right trim: drop trailing whitespace. -/
def trimR (s : Str) : Str := (s.reverse.dropWhile isWS).reverse

/-- JavaScript `s.trim()`. -/
def jsTrim (s : Str) : Str := trimR (trimL s)

/-- A JSON value, the result shape of the runtime `JSON.parse`. -/
inductive Json where
  | null
  | bool (b : Bool)
  | num (n : Int)
  | str (s : Str)
  | arr (elems : List Json)
  | obj (fields : List (Str × Json))

/-- JavaScript property access `j.k` on a parsed JSON value: a lookup that
yields `none` (undefined) on non-objects and missing keys. -/
def jsonGet (j : Json) (k : Str) : Option Json :=
  match j with
  | .obj fs => (fs.find? (fun p => p.1 = k)).map (fun p => p.2)
  | _ => none

/-- JavaScript truthiness of a JSON value. -/
def truthy : Json → Bool
  | .null => false
  | .bool b => b
  | .num n => n != 0
  | .str s => !s.isEmpty
  | .arr _ => true
  | .obj _ => true

/-- JavaScript truthiness of a possibly-undefined value. -/
def truthyOpt : Option Json → Bool
  | some v => truthy v
  | none => false

/-- Truthiness of JavaScript `v.length` (defined for arrays and strings,
undefined hence falsy for everything else). -/
def lengthTruthy : Json → Bool
  | .arr xs => !xs.isEmpty
  | .str s => !s.isEmpty
  | _ => false

/-- The test `json.choices && json.choices.length` guarding the delta-handling
branch of the stream loop (`src/index.ts:383`). -/
def hasNonemptyChoices (j : Json) : Bool :=
  match jsonGet j "choices".toList with
  | some c => truthy c && lengthTruthy c
  | none => false

/-- JavaScript `v?.[0]`: first element of an array (or one-character string of
a string), undefined otherwise. -/
def jsIndex0 : Json → Option Json
  | .arr (x :: _) => some x
  | .str (c :: _) => some (.str [c])
  | _ => none

/-- A normalized function call: name plus parsed argument mapping. -/
structure FunctionCall where
  name : Str
  arguments : Json

/-- The normalized response shape returned by every provider path. -/
structure ParsedResponseMessage where
  role : Str
  content : Option Str
  function_call : Option FunctionCall

/-- The constant role of every response message. -/
def assistantRole : Str := "assistant".toList

/-- The function-call materialization step of `parseStreamedResponse`
(`src/index.ts:51-69`): a call is produced only when both accumulated
fragments are non-empty, the name is allowed, and the arguments parse. -/
def computeFunctionCall (parse : Str → Option Json)
    (allowedFunctionNames : Option (List Str))
    (functionCallName functionCallArgs : Str) : Except Str (Option FunctionCall) :=
  if functionCallName ≠ [] ∧ functionCallArgs ≠ [] then
    match allowedFunctionNames with
    | some allowed =>
      if functionCallName ∉ allowed then
        .error ("Stream error: received function call with unknown name: ".toList
          ++ functionCallName)
      else
        match parse functionCallArgs with
        | none => .error "Error parsing functionCallArgs".toList
        | some args => .ok (some ⟨functionCallName, args⟩)
    | none =>
      match parse functionCallArgs with
      | none => .error "Error parsing functionCallArgs".toList
      | some args => .ok (some ⟨functionCallName, args⟩)
  else .ok none

/-- `parseStreamedResponse` (`src/index.ts:44-87`): finalize the accumulated
stream state into a `ParsedResponseMessage`, failing when neither text nor a
function call was produced. -/
def parseStreamedResponse (parse : Str → Option Json)
    (allowedFunctionNames : Option (List Str))
    (paragraph functionCallName functionCallArgs : Str) :
    Except Str ParsedResponseMessage :=
  match computeFunctionCall parse allowedFunctionNames functionCallName functionCallArgs with
  | .error e => .error e
  | .ok none =>
    if paragraph = [] then
      .error "Stream error: received message without content or function_call".toList
    else
      .ok ⟨assistantRole, some paragraph, none⟩
  | .ok (some fc) =>
    .ok ⟨assistantRole,
      (if paragraph = [] then none else some paragraph),
      some fc⟩

/-- The record-start marker of the line-oriented streaming format: the string
literal the stream loop splits on (`src/index.ts:345`). -/
def mk : Str := "data: ".toList

/-- The terminal sentinel literal searched for with `includes`
(`src/index.ts:352`). -/
def doneMark : Str := "[DONE]".toList

/-- Fueled worker for the multiline split on the record-start marker: walking
the string, a segment is closed after a newline that is immediately followed
by the marker, and the marker itself is dropped.  The fuel only bounds the
recursion; `splitAfter_fuel` shows any sufficient fuel gives the same value. -/
def splitAfterF : Nat → Str → Str × List Str
  | 0, s => (s, [])
  | _ + 1, [] => ([], [])
  | fuel + 1, c :: rest =>
    if c = nlc ∧ prefixOfB mk rest = true then
      match splitAfterF fuel (rest.drop 6) with
      | (seg, segs) => ([nlc], seg :: segs)
    else
      match splitAfterF fuel rest with
      | (seg, segs) => (c :: seg, segs)

/-- Split after the first position: worker with adequate fuel. -/
def splitAfter (s : Str) : Str × List Str := splitAfterF (s.length + 1) s

/-- JavaScript `chunk.split(/^data: /gm)` (`src/index.ts:345`): the marker also
matches at the very start of the string, contributing a leading empty
segment. -/
def splitDM (s : Str) : List Str :=
  if prefixOfB mk s = true then
    match splitAfter (s.drop 6) with
    | (seg, segs) => [] :: seg :: segs
  else
    match splitAfter s with
    | (seg, segs) => seg :: segs

/-- The mutable locals of the streaming read loop of `callOpenAIStream`
(`src/index.ts:300-321`), plus a ghost `trace` listing every record that was
successfully JSON-parsed, in processing order. -/
structure AccState where
  rawStreamedBody : Str
  paragraph : Str
  functionCallName : Str
  functionCallArgs : Str
  partialChunk : Str
  chunkIndex : Int
  trace : List Json

/-- The initial loop state (`src/index.ts:300-321`). -/
def initAccState : AccState := ⟨[], [], [], [], [], -1, []⟩

/-- Stream-level failures thrown by the read loop. -/
inductive StreamErr where
  | endedPrematurely
  | openAIError (data : Json)
  | streamParse (msg : Str)

/-- Outcome of handling one split segment: continue with a new state, or stop
the whole stream with a result (a `return` or a `throw` in the source). -/
inductive SegStep where
  | cont (st : AccState)
  | halt (r : Except StreamErr ParsedResponseMessage)

/-- The delta member of a stream record:
`json.choices?.[0]?.delta` (`src/index.ts:412,423`). -/
def deltaOf (j : Json) : Option Json :=
  ((jsonGet j "choices".toList).bind jsIndex0).bind
    (fun c => jsonGet c "delta".toList)

/-- The first tool-call slot of the delta:
`json.choices?.[0]?.delta?.tool_calls?.[0]` (`src/index.ts:412`). -/
def dToolCallOf (j : Json) : Option Json :=
  ((deltaOf j).bind (fun d => jsonGet d "tool_calls".toList)).bind jsIndex0

/-- The delta-accumulation step (`src/index.ts:404-427`): append the first
tool-call slot's name/argument fragments and the content delta.  Only string
deltas are modelled, matching the wire format of the `delta` payloads. -/
def accumulateDelta (st : AccState) (j : Json) : AccState :=
  let st1 :=
    match dToolCallOf j with
    | some tc =>
      if truthy tc then
        if truthyOpt (jsonGet tc "index".toList) then st
        else
          let fn := jsonGet tc "function".toList
          let st' :=
            match fn.bind (fun f => jsonGet f "name".toList) with
            | some (.str s) =>
              if s ≠ [] then
                { st with functionCallName := st.functionCallName ++ s }
              else st
            | _ => st
          match fn.bind (fun f => jsonGet f "arguments".toList) with
          | some (.str s) =>
            if s ≠ [] then
              { st' with functionCallArgs := st'.functionCallArgs ++ s }
            else st'
          | _ => st'
      else st
    | none => st
  match (deltaOf j).bind (fun d => jsonGet d "content".toList) with
  | some (.str s) =>
    if s ≠ [] then { st1 with paragraph := st1.paragraph ++ s } else st1
  | _ => st1

/-- The name fragment the accumulation step appends for a record. -/
def deltaName (j : Json) : Str :=
  match dToolCallOf j with
  | some tc =>
    if truthy tc then
      if truthyOpt (jsonGet tc "index".toList) then []
      else
        match (jsonGet tc "function".toList).bind (fun f => jsonGet f "name".toList) with
        | some (.str s) => s
        | _ => []
    else []
  | none => []

/-- The arguments fragment the accumulation step appends for a record. -/
def deltaArgs (j : Json) : Str :=
  match dToolCallOf j with
  | some tc =>
    if truthy tc then
      if truthyOpt (jsonGet tc "index".toList) then []
      else
        match (jsonGet tc "function".toList).bind
            (fun f => jsonGet f "arguments".toList) with
        | some (.str s) => s
        | _ => []
    else []
  | none => []

/-- The content fragment the accumulation step appends for a record. -/
def deltaContent (j : Json) : Str :=
  match (deltaOf j).bind (fun d => jsonGet d "content".toList) with
  | some (.str s) => s
  | _ => []

/-- Handling of a successfully parsed record (`src/index.ts:383-427`): records
without a non-empty `choices` either fail the stream (an `error` payload is
present) or are skipped; otherwise the deltas are accumulated. -/
def handleParsedRecord (st : AccState) (j : Json) : SegStep :=
  if hasNonemptyChoices j then .cont (accumulateDelta st j)
  else if truthyOpt (jsonGet j "error".toList) then
    .halt (.error (.openAIError ((jsonGet j "error".toList).getD .null)))
  else .cont st

/-- Processing of one split segment (`src/index.ts:347-427`): empty segments
are skipped; a segment containing the terminal sentinel finalizes the
accumulated state; a segment that fails to JSON-parse becomes the new
partial-chunk buffer; otherwise the parsed record is handled. -/
def processSegment (parse : Str → Option Json) (allowed : Option (List Str))
    (st : AccState) (seg : Str) : SegStep :=
  if seg = [] then .cont st
  else if containsSub doneMark seg then
    .halt ((parseStreamedResponse parse allowed st.paragraph st.functionCallName
      st.functionCallArgs).mapError .streamParse)
  else
    match parse (jsTrim seg) with
    | none => .cont { st with partialChunk := seg }
    | some j => handleParsedRecord { st with trace := st.trace ++ [j] } j

/-- Fold `processSegment` over the segments of one chunk, stopping at the
first `return`/`throw`. -/
def procSegs (parse : Str → Option Json) (allowed : Option (List Str))
    (st : AccState) : List Str → SegStep
  | [] => .cont st
  | seg :: rest =>
    match processSegment parse allowed st seg with
    | .cont st' => procSegs parse allowed st' rest
    | .halt r => .halt r

/-- Processing of one network read (`src/index.ts:322-428`): bump the chunk
counter, append to the raw log, prepend the held partial chunk, split on the
record marker and process every segment. -/
def processBuffer (parse : Str → Option Json) (allowed : Option (List Str))
    (st : AccState) (buffer : Str) : SegStep :=
  let st0 : AccState :=
    { st with chunkIndex := st.chunkIndex + 1,
              rawStreamedBody := st.rawStreamedBody ++ buffer ++ [nlc] }
  let chunk := st0.partialChunk ++ buffer
  procSegs parse allowed { st0 with partialChunk := [] } (splitDM chunk)

/-- Result of running the read loop on a whole sequence of reads: either some
segment halted the stream, or the reads were exhausted (the transport reported
its done flag, `src/index.ts:328`). -/
inductive StreamRun where
  | halted (r : Except StreamErr ParsedResponseMessage) (st : AccState)
  | exhausted (st : AccState)

/-- The streaming read loop of `callOpenAIStream` over an injected list of
network reads; an empty list means the reader reports `done`. -/
def runStream (parse : Str → Option Json) (allowed : Option (List Str))
    (st : AccState) : List Str → StreamRun
  | [] => .exhausted st
  | b :: bs =>
    match processBuffer parse allowed st b with
    | .halt r => .halted r st
    | .cont st' => runStream parse allowed st' bs

/-- The value `callOpenAIStream` computes from a run: transport EOF without a
sentinel throws `ended prematurely` (`src/index.ts:328-337`). -/
def StreamRun.result : StreamRun → Except StreamErr ParsedResponseMessage
  | .halted r _ => r
  | .exhausted _ => .error .endedPrematurely

/-- The ghost record trace of a finished run. -/
def StreamRun.trace : StreamRun → List Json
  | .halted _ st => st.trace
  | .exhausted st => st.trace

/-! Anthropic message-sequence normalizer (`src/index.ts:606-666`). -/

/-- The message roles of the generic and Anthropic shapes. -/
inductive ARole where
  | user
  | assistant
  | system
deriving DecidableEq

/-- An Anthropic content block: text, or an image source. -/
inductive ABlock where
  | text (s : Str)
  | image (mediaType : Str) (data : Str)

/-- Anthropic message content: a plain string or a block list. -/
inductive AContent where
  | str (s : Str)
  | blocks (bs : List ABlock)

/-- A role-tagged Anthropic message. -/
structure AnthropicAIMessage where
  role : ARole
  content : AContent

/-- The synthesized placeholder user message (`src/index.ts:616-622,659-662`). -/
def placeholderUser : AnthropicAIMessage := ⟨.user, .str "...".toList⟩

/-- Wrap string content into a single text block (`src/index.ts:634-639`). -/
def toBlocksL : AContent → List ABlock
  | .str s => [.text s]
  | .blocks bs => bs

/-- The separator block inserted between merged same-role contents
(`src/index.ts:643`). -/
def sepBlock : ABlock := .text "\n\n---\n\n".toList

/-- `jiggedMessages[0]?.role !== "user"` (`src/index.ts:615`). -/
def headNotUser (ms : List AnthropicAIMessage) : Bool :=
  match ms.head? with
  | some m => match m.role with | .user => false | _ => true
  | none => true

/-- Last-element role test for the trailing fixup (`src/index.ts:658`). -/
def lastIsAssistant (ms : List AnthropicAIMessage) : Bool :=
  match ms.getLast? with
  | some m => match m.role with | .assistant => true | _ => false
  | none => false

/-- One step of the grouping reduce (`src/index.ts:626-655`): merge into the
previous message when roles coincide, otherwise append with string content
normalized to a block list. -/
def reduceStep (acc : List AnthropicAIMessage) (m : AnthropicAIMessage) :
    List AnthropicAIMessage :=
  match acc.getLast? with
  | none => [m]
  | some lastMessage =>
    if lastMessage.role = m.role then
      acc.dropLast ++ [{ lastMessage with
        content := .blocks (toBlocksL lastMessage.content ++ [sepBlock]
          ++ toBlocksL m.content) }]
    else
      acc ++ [{ m with
        content := match m.content with | .str s => .blocks [.text s] | c => c }]

/-- `jigAnthropicMessages` (`src/index.ts:606-666`): prepend a placeholder
user message when the list does not start with a user turn, group consecutive
same-role messages, and append a placeholder user message when the list ends
with an assistant turn.  The source assumes no system messages are present
and does not remove them. -/
def jigAnthropicMessages (messages : List AnthropicAIMessage) :
    List AnthropicAIMessage :=
  let jigged1 :=
    if headNotUser messages = true then placeholderUser :: messages else messages
  let jigged2 := jigged1.foldl reduceStep []
  if lastIsAssistant jigged2 = true then jigged2 ++ [placeholderUser] else jigged2

/-! Anthropic response unwrapping (`src/index.ts:545-604`). -/

/-- One element of the Anthropic `content` answer array, classified by its
`type` tag: missing tag, a text answer, a tool-use answer, or a different
(ignored) tag. -/
inductive AAnswer where
  | untyped
  | textA (raw : Str)
  | toolUse (name : Str) (input : Json)
  | otherTyped (tag : Str)

/-- Text extraction for one text answer (`src/index.ts:561-574`): strip the
thinking/answer tags and trim; when that leaves nothing, only remove the tag
markers.  The two regex replacements are external collaborators passed as
function parameters. -/
def anthropicAnswerText (strip1 strip2 : Str → Str) (raw : Str) : Str :=
  let t := strip1 raw
  if t = [] then strip2 raw else t

/-- The accumulation loop over the answers (`src/index.ts:554-588`). -/
def anthropicFold (strip1 strip2 : Str → Str) :
    List AAnswer → Str → List FunctionCall →
    Except Str (Str × List FunctionCall)
  | [], t, fcs => .ok (t, fcs)
  | a :: rest, t, fcs =>
    match a with
    | .untyped => .error "Missing answer type in Anthropic API".toList
    | .textA raw =>
      let tx := anthropicAnswerText strip1 strip2 raw
      let t' := if t ≠ [] then t ++ "\n\n".toList ++ tx else tx
      anthropicFold strip1 strip2 rest t' fcs
    | .toolUse name input =>
      anthropicFold strip1 strip2 rest t (fcs ++ [⟨name, input⟩])
    | .otherTyped _ => anthropicFold strip1 strip2 rest t fcs

/-- Unwrapping of the Anthropic response content array into a
`ParsedResponseMessage` (`src/index.ts:545-604`). -/
def parseAnthropicAnswers (strip1 strip2 : Str → Str) (answers : List AAnswer) :
    Except Str ParsedResponseMessage :=
  match answers with
  | [] => .error "Missing answer in Anthropic API".toList
  | _ :: _ =>
    match anthropicFold strip1 strip2 answers [] [] with
    | .error e => .error e
    | .ok (textResponse, functionCalls) =>
      match textResponse, functionCalls with
      | [], [] => .error "Missing text & fns in Anthropic API response".toList
      | t, fcs => .ok ⟨assistantRole, some t, fcs.head?⟩

/-! Groq response unwrapping (`src/index.ts:1032-1070`). -/

/-- The `function` member of a Groq tool call: name plus the still-unparsed
JSON arguments string. -/
structure GroqToolCallFn where
  name : Str
  arguments : Str

/-- One Groq tool call. -/
structure GroqToolCall where
  function : GroqToolCallFn

/-- The Groq response message shape. -/
structure GroqRespMessage where
  content : Option Str
  tool_calls : Option (List GroqToolCall)

/-- One Groq response choice. -/
structure GroqChoice where
  message : Option GroqRespMessage

/-- The Groq response body. -/
structure GroqData where
  choices : List GroqChoice

/-- Unwrapping of a Groq response (`src/index.ts:1047-1069`): note that no
check requires the result to carry text or a function call. -/
def parseGroqResponse (parse : Str → Option Json) (data : GroqData) :
    Except Str ParsedResponseMessage :=
  match data.choices.head? with
  | none => .error "TypeError: undefined has no properties".toList
  | some choice =>
    match choice.message with
    | none => .error "Missing answer in Groq API".toList
    | some answer =>
      let textResponse : Option Str :=
        match answer.content with
        | some c => if c = [] then none else some c
        | none => none
      match answer.tool_calls with
      | some (toolCall :: _) =>
        match parse toolCall.function.arguments with
        | none => .error "JSON parse error in tool call arguments".toList
        | some args =>
          .ok ⟨assistantRole, textResponse, some ⟨toolCall.function.name, args⟩⟩
      | _ => .ok ⟨assistantRole, textResponse, none⟩

/-! Google response unwrapping (`src/index.ts:745-785`). -/

/-- One function call reported by the Google client library. -/
structure GoogleFC where
  name : Str
  args : Json

/-- The response materialization of `callGoogleAI` (`src/index.ts:767-784`)
from the text and function-call lists the client library reports: no check
requires the result to carry text or a function call. -/
def parseGoogleAIResponse (text : Option Str) (functionCalls : Option (List GoogleFC)) :
    ParsedResponseMessage :=
  let content : Option Str :=
    match text with
    | some t => if t = [] then none else some t
    | none => none
  let fc : Option FunctionCall :=
    match functionCalls with
    | some (f :: _) => some ⟨f.name, f.args⟩
    | _ => none
  ⟨assistantRole, content, fc⟩

/-! The OpenAI retry/fallback controller (`src/index.ts:89-207`). -/

/-- The OpenAI-compatible service selector. -/
inductive OpenAIService where
  | azure
  | openai
deriving DecidableEq

/-- An OpenAI content block (only its text/non-text classification matters to
the remediation logic). -/
inductive OAIBlock where
  | text (s : Str)
  | imageUrl (url : Str)

/-- OpenAI message content: plain string or block array. -/
inductive OAIContent where
  | str (s : Str)
  | blocks (bs : List OAIBlock)

/-- An OpenAI chat message. -/
structure OpenAIMessageM where
  role : Str
  content : OAIContent

/-- The payload `tool_choice` field. -/
inductive ToolChoiceM where
  | choiceNone
  | auto
  | functionChoice (name : Str)
deriving DecidableEq

/-- The OpenAI payload fields read or written by the retry controller; tools
are modelled by their function names, the only member the controller and the
stream allow-list read. -/
structure OpenAIPayloadM where
  model : Str
  temperature : Option ℚ
  messages : List OpenAIMessageM
  tools : Option (List Str)
  tool_choice : Option ToolChoiceM

/-- The OpenAI config fields read or written by the retry controller. -/
structure OpenAIConfigM where
  service : OpenAIService

/-- The mutable payload/config pair carried across retry attempts. -/
structure ORetryState where
  payload : OpenAIPayloadM
  config : Option OpenAIConfigM

/-- The fixed fallback model every failure downgrades to
(`src/index.ts:140`). -/
def gpt4_0409 : Str := "gpt-4-turbo-2024-04-09".toList

/-- The raised retry temperature (`src/index.ts:141`). -/
def temp08 : ℚ := 4 / 5

/-- The `content_policy_violation` error code literal. -/
def cpvCode : Str := "content_policy_violation".toList

/-- The `content_filter` error code literal. -/
def cfCode : Str := "content_filter".toList

/-- `openAiConfig?.service === "azure"`. -/
def serviceIsAzure : Option OpenAIConfigM → Bool
  | some cfg => match cfg.service with | .azure => true | .openai => false
  | none => false

/-- Set the service selector to direct OpenAI. -/
def setServiceOpenAI : Option OpenAIConfigM → Option OpenAIConfigM
  | some cfg => some { cfg with service := .openai }
  | none => none

/-- Strip non-text content blocks from one message (`src/index.ts:149-155`);
string content is not an array and stays untouched. -/
def stripNonText (m : OpenAIMessageM) : OpenAIMessageM :=
  match m.content with
  | .blocks bs =>
    { m with content := .blocks (bs.filter fun b =>
        match b with | .text _ => true | _ => false) }
  | _ => m

/-- The remediation block of the catch handler in `callOpenAiWithRetries`
(`src/index.ts:127-196`), as a function of the attempt index, the provider
error code and the carried payload/config state. -/
def remediateOpenAI (i : Nat) (errorCode : Option Str) (st : ORetryState) :
    ORetryState :=
  let p0 := { st.payload with model := gpt4_0409, temperature := some temp08 }
  let p1 :=
    if errorCode = some cpvCode then
      { p0 with messages := p0.messages.map stripNonText }
    else p0
  let c1 :=
    if 2 ≤ i ∧ serviceIsAzure st.config = true ∧ errorCode = some cfCode then
      setServiceOpenAI st.config
    else st.config
  let c2 := if i = 3 ∧ serviceIsAzure c1 = true then setServiceOpenAI c1 else c1
  let p2 :=
    if i = 4 ∧ p1.tools.isSome = true then
      { p1 with tool_choice := some .choiceNone }
    else p1
  ⟨p2, c2⟩

/-- Modelled from the spec: the remediation table of section 4.4, its five
OpenAI-compatible rows executed in the stated precedence order on the same
carried state.  Written from the table text, to be compared with
`remediateOpenAI`. -/
def specRemediationTable (i : Nat) (errorCode : Option Str) (st : ORetryState) :
    ORetryState :=
  let st1 : ORetryState :=
    ⟨{ st.payload with model := gpt4_0409, temperature := some temp08 }, st.config⟩
  let st2 : ORetryState :=
    if errorCode = some cpvCode then
      ⟨{ st1.payload with messages := st1.payload.messages.map stripNonText }, st1.config⟩
    else st1
  let st3 : ORetryState :=
    if 2 ≤ i ∧ serviceIsAzure st2.config = true ∧ errorCode = some cfCode then
      ⟨st2.payload, setServiceOpenAI st2.config⟩
    else st2
  let st4 : ORetryState :=
    if i = 3 ∧ serviceIsAzure st3.config = true then
      ⟨st3.payload, setServiceOpenAI st3.config⟩
    else st3
  let st5 : ORetryState :=
    if i = 4 ∧ st4.payload.tools.isSome = true then
      ⟨{ st4.payload with tool_choice := some .choiceNone }, st4.config⟩
    else st4
  st5

/-- The injected outcome of one OpenAI attempt. -/
inductive ORes where
  | success (m : ParsedResponseMessage)
  | failure (errorCode : Option Str)

/-- The retry loop of `callOpenAiWithRetries` (`src/index.ts:104-197`) over
injected attempt outcomes, structurally recursing on the remaining attempt
budget (`remaining = retries + 1 - i`); it also returns the ghost list of the
states in force at each attempt made.  Exhaustion throws an error embedding
the `retries` parameter (`src/index.ts:204-206`). -/
def openAiGo (f : Nat → ORes) (retries : Nat) :
    Nat → Nat → ORetryState → Except Nat ParsedResponseMessage × List ORetryState
  | 0, _, _ => (.error retries, [])
  | remaining + 1, i, st =>
    match f i with
    | .success m => (.ok m, [st])
    | .failure code =>
      let st' := remediateOpenAI i code st
      let out := openAiGo f retries remaining (i + 1) st'
      (out.1, st :: out.2)

/-- `callOpenAiWithRetries` as a function of injected outcomes: the loop runs
attempt indices `0..retries`. -/
def callOpenAiWithRetriesModel (f : Nat → ORes) (retries : Nat) (st : ORetryState) :
    Except Nat ParsedResponseMessage × List ORetryState :=
  openAiGo f retries (retries + 1) 0 st

/-! The Anthropic and Groq retry loops (`src/index.ts:434-473,1072-1100`). -/

/-- The Claude model enumeration. -/
inductive ClaudeModelM where
  | haiku
  | sonnet
  | opus
deriving DecidableEq

/-- The injected outcome of one Anthropic attempt. -/
inductive ARes where
  | success (m : ParsedResponseMessage)
  | failure (rateLimitError : Bool)

/-- The aggregate error thrown on exhaustion: attempt bound plus the last
response (which is only assigned on success, hence `none` when every attempt
failed). -/
structure RetryExhaust where
  attempts : Nat
  lastResponse : Option ParsedResponseMessage

/-- The retry loop of `callAnthropicWithRetries` (`src/index.ts:442-472`) over
injected outcomes; the second component counts the attempts made.  The model
is downgraded to Sonnet on the final attempt and on a rate-limit error. -/
def anthropicGo (f : Nat → ARes) (attempts : Nat) :
    Nat → Nat → ClaudeModelM → Except RetryExhaust ParsedResponseMessage × Nat
  | 0, _, _ => (.error ⟨attempts, none⟩, 0)
  | remaining + 1, i, model =>
    let model1 := if i = attempts - 1 then ClaudeModelM.sonnet else model
    match f i with
    | .success m => (.ok m, 1)
    | .failure rateLimit =>
      let model2 := if rateLimit then ClaudeModelM.sonnet else model1
      let out := anthropicGo f attempts remaining (i + 1) model2
      (out.1, out.2 + 1)

/-- `callAnthropicWithRetries` over injected outcomes: `i` runs over
`0 ≤ i < attempts`. -/
def callAnthropicWithRetriesModel (f : Nat → ARes) (attempts : Nat)
    (model : ClaudeModelM) : Except RetryExhaust ParsedResponseMessage × Nat :=
  anthropicGo f attempts attempts 0 model

/-- The retry loop of `callGroqWithRetries` (`src/index.ts:1080-1094`) over
injected outcomes; the payload is never mutated. -/
def groqGo (f : Nat → Option ParsedResponseMessage) (retries : Nat) :
    Nat → Nat → Except RetryExhaust ParsedResponseMessage × Nat
  | 0, _ => (.error ⟨retries, none⟩, 0)
  | remaining + 1, i =>
    match f i with
    | some m => (.ok m, 1)
    | none =>
      let out := groqGo f retries remaining (i + 1)
      (out.1, out.2 + 1)

/-- `callGroqWithRetries` over injected outcomes. -/
def callGroqWithRetriesModel (f : Nat → Option ParsedResponseMessage)
    (retries : Nat) : Except RetryExhaust ParsedResponseMessage × Nat :=
  groqGo f retries retries 0

/-! Provider dispatch in `callWithRetries` (`src/index.ts:787-828`), by
runtime membership of the model value in the four enumerations of
`src/interfaces.ts`. -/

/-- The `ClaudeModel` enumeration values. -/
def claudeModelValues : List Str :=
  ["claude-3-haiku-20240307", "claude-3-sonnet-20240229",
   "claude-3-opus-20240229"].map String.toList

/-- The `GPTModel` enumeration values. -/
def gptModelValues : List Str :=
  ["gpt-3.5-turbo-0613", "gpt-3.5-turbo-16k-0613", "gpt-3.5-turbo-0125",
   "gpt-4-1106-preview", "gpt-4-0125-preview", "gpt-4-turbo-2024-04-09",
   "gpt-4o"].map String.toList

/-- The `GroqModel` enumeration values. -/
def groqModelValues : List Str := ["llama3-70b-8192"].map String.toList

/-- The `GeminiModel` enumeration values. -/
def geminiModelValues : List Str := ["gemini-1.5-pro-latest"].map String.toList

/-- The provider path selected by dispatch. -/
inductive ProviderDispatch where
  | anthropic
  | openai
  | groq
  | google
deriving DecidableEq

/-- The dispatch chain of `callWithRetries` (`src/index.ts:795-827`): probe the
four enumerations in order; a model in none of them throws. -/
def callWithRetriesDispatch (model : Str) : Except Str ProviderDispatch :=
  if model ∈ claudeModelValues then .ok .anthropic
  else if model ∈ gptModelValues then .ok .openai
  else if model ∈ groqModelValues then .ok .groq
  else if model ∈ geminiModelValues then .ok .google
  else .error "Invalid AI payload: Unknown model type.".toList

/-! Derived definitions used by the statements. -/

/-- The role sequence of a message list. -/
def rolesOf (ms : List AnthropicAIMessage) : List ARole := ms.map (fun m => m.role)

/-- The state in force at attempt `i + k` of the OpenAI retry loop when the
attempts before it failed: the cumulative iteration of the remediation on one
carried state, never reset. -/
def iterRemediateFrom (f : Nat → ORes) (i : Nat) (st : ORetryState) : Nat → ORetryState
  | 0 => st
  | k + 1 =>
    match f (i + k) with
    | .failure c => remediateOpenAI (i + k) c (iterRemediateFrom f i st k)
    | .success _ => iterRemediateFrom f i st k

/-! Concrete sample data for witnesses and counterexamples. -/

/-- A provider error record without choices. -/
def sampleErrJson : Json := .obj [("error".toList, .str "bad".toList)]

/-- A benign keep-alive record without choices and without error. -/
def sampleKeepAlive : Json := .obj [("id".toList, .str "x".toList)]

/-- A delta record carrying the content fragment `Hi`. -/
def sentinelJson : Json :=
  .obj [("choices".toList,
    .arr [.obj [("delta".toList, .obj [("content".toList, .str "Hi".toList)])]])]

/-- The wire text of `sentinelJson`. -/
def sentinelRec1 : Str :=
  "\x7b\"choices\":[\x7b\"delta\":\x7b\"content\":\"Hi\"\x7d\x7d]\x7d".toList

/-- A parse oracle recognizing exactly `sentinelRec1`. -/
def sentinelParse : Str → Option Json :=
  fun s => if s = sentinelRec1 then some sentinelJson else none

/-- A stream whose second record contains the sentinel as a proper substring
of a larger JSON record. -/
def sentinelBuf : Str :=
  "data: ".toList ++ sentinelRec1 ++ [nlc]
    ++ "data: ".toList ++ "\x7b\"x\":\"[DONE]\"\x7d".toList ++ [nlc]

/-- A well-formed stream ending with the proper sentinel record. -/
def sentinelGoodBuf : Str :=
  "data: ".toList ++ sentinelRec1 ++ [nlc] ++ "data: [DONE]".toList ++ [nlc]

/-- A minimal payload/config state for retry-loop witnesses. -/
def samplePayloadState : ORetryState :=
  ⟨⟨"gpt-4o".toList, none, [⟨"user".toList, .blocks [.text "hi".toList, .imageUrl "u".toList]⟩],
    some ["f".toList], none⟩, some ⟨.azure⟩⟩

/-! Definitions for the chunk-framing correctness statement. -/

/-- Stale whitespace: `q` newline characters. -/
def junkL (q : Nat) : Str := List.replicate q nlc

/-- The wire unit of one record: marker, record text, newline. -/
def unitOf (r : Str) : Str := mk ++ r ++ [nlc]

/-- The byte stream of a record sequence. -/
def streamOf (rs : List Str) : Str := (rs.map unitOf).flatten

/-- The effect of one whole parsed record on the loop state, as the segment
processing performs it: extend the ghost trace, then accumulate the deltas of
records with non-empty choices. -/
def recordStep (parse : Str → Option Json) (st : AccState) (r : Str) : AccState :=
  match parse r with
  | some j =>
    let st1 := { st with trace := st.trace ++ [j] }
    if hasNonemptyChoices j then accumulateDelta st1 j else st1
  | none => st

/-- Override the partial-chunk buffer of a state. -/
def withPartial (st : AccState) (p : Str) : AccState := { st with partialChunk := p }

/-- Well-formedness of one streamed JSON record relative to the external
`JSON.parse` oracle: the record is non-empty, newline-free, trim-invariant,
neither a prefix of the marker nor starting with it, free of the sentinel
substring, parses to a record that does not fail the stream, and neither its
proper prefixes nor its marker dangles parse as complete JSON — the facts
true of real JSON records in the `data: `-framed wire format. -/
def WFRecord (parse : Str → Option Json) (r : Str) : Prop :=
  r ≠ [] ∧ nlc ∉ r ∧ jsTrim r = r ∧
  prefixOfB r mk = false ∧ prefixOfB mk r = false ∧
  containsSub doneMark r = false ∧
  (∃ j, parse r = some j ∧
    (hasNonemptyChoices j = true ∨ truthyOpt (jsonGet j "error".toList) = false)) ∧
  (∀ s, s < r.length → parse (jsTrim (r.take s)) = none) ∧
  (∀ t, 1 ≤ t → t ≤ 5 → parse (r ++ nlc :: mk.take t) = none)

/-- Facts about the `JSON.parse` oracle on framing junk: the empty string and
proper prefixes of the record marker never parse. -/
def WFParse (parse : Str → Option Json) : Prop :=
  parse [] = none ∧ ∀ t, 1 ≤ t → t ≤ 5 → parse (mk.take t) = none

/-- The possible partial-chunk shapes at a read boundary, relating the not
yet fully processed records `rest`, the unread remainder `W` of the byte
stream, and the held partial chunk `P`. -/
def ShapeP (rest : List Str) (W : Str) (P : Str) : Prop :=
  (rest = [] ∧ W = [] ∧ ∃ q, P = junkL q) ∨
  (∃ r rest2 t q, rest = r :: rest2 ∧ t ≤ 5 ∧ P = junkL q ++ mk.take t ∧
    W = mk.drop t ++ (r ++ nlc :: streamOf rest2)) ∨
  (∃ r rest2 s q, rest = r :: rest2 ∧ s < r.length ∧ P = junkL q ++ r.take s ∧
    W = r.drop s ++ nlc :: streamOf rest2) ∨
  (∃ r r2 rest3 t q, rest = r :: r2 :: rest3 ∧ 1 ≤ t ∧ t ≤ 5 ∧
    P = junkL q ++ (r ++ nlc :: mk.take t) ∧
    W = mk.drop t ++ (r2 ++ nlc :: streamOf rest3)) ∨
  (W = nlc :: streamOf rest ∧ ∃ q, P = junkL q)

/-- Outcome contract of processing one chunk from state `st` with unconsumed
records `todo` and stream remainder `W` after the chunk: some prefix of
`todo` got fully processed, and the rest dangles in one of the partial-chunk
shapes. -/
def ChunkOut (parse : Str → Option Json) (st : AccState) (todo : List Str)
    (W : Str) (out : SegStep) : Prop :=
  ∃ k P, out = .cont (withPartial ((todo.take k).foldl (recordStep parse) st) P) ∧
    ShapeP (todo.drop k) W P

/-- The loop invariant of the whole streaming run on a well-formed record
stream: at every read boundary the semantic fields agree with the canonical
fold of the fully processed records, and the partial chunk dangles in one of
the boundary shapes against the unread remainder. -/
def StreamInv (parse : Str → Option Json) (rs : List Str) (st : AccState)
    (rem : Str) : Prop :=
  ∃ k,
    st.paragraph = ((rs.take k).foldl (recordStep parse) initAccState).paragraph ∧
    st.functionCallName =
      ((rs.take k).foldl (recordStep parse) initAccState).functionCallName ∧
    st.functionCallArgs =
      ((rs.take k).foldl (recordStep parse) initAccState).functionCallArgs ∧
    st.trace = ((rs.take k).foldl (recordStep parse) initAccState).trace ∧
    ShapeP (rs.drop k) rem st.partialChunk

/-- Concrete record texts for the chunk-framer witness. -/
def c1r1 : Str := "A".toList

/-- Second concrete record text for the chunk-framer witness. -/
def c1r2 : Str := "B".toList

/-- A concrete oracle recognising exactly the two witness records. -/
def c1Parse : Str → Option Json := fun s =>
  if s = c1r1 then some (.num 1) else if s = c1r2 then some (.num 2) else none

/-- The witness record sequence. -/
def c1Records : List Str := [c1r1, c1r2]

/-- A mid-record split of the witness stream into two reads. -/
def c1Buffers : List Str := ["data: A\nda".toList, "ta: B\n".toList]

/-! Theorems. -/

/-- C10: for every payload whose model value belongs to none of the four
provider model enumerations, `callWithRetries` throws the
`Invalid AI payload: Unknown model type.` error without dispatching to any
provider path. -/
theorem c10_unknown_model_throws (model : Str)
    (h1 : model ∉ claudeModelValues) (h2 : model ∉ gptModelValues)
    (h3 : model ∉ groqModelValues) (h4 : model ∉ geminiModelValues) :
    callWithRetriesDispatch model =
      .error "Invalid AI payload: Unknown model type.".toList := by
  unfold callWithRetriesDispatch
  rw [if_neg h1, if_neg h2, if_neg h3, if_neg h4]

/-- Witness for C10 at the concrete model string `gpt-5`. -/
theorem c10_unknown_model_throws_witness :
    "gpt-5".toList ∉ claudeModelValues ∧
    callWithRetriesDispatch "gpt-5".toList =
      .error "Invalid AI payload: Unknown model type.".toList :=
  ⟨by decide,
   c10_unknown_model_throws "gpt-5".toList (by decide) (by decide) (by decide)
     (by decide)⟩

/-- C7: a parsed stream record lacking a non-empty `choices` field fails the
stream with an error carrying the raw error payload when an `error` field is
(truthily) present, and is skipped with the stream continuing otherwise. -/
theorem c7_noChoices_error_or_skip (st : AccState) (j : Json)
    (h : hasNonemptyChoices j = false) :
    (truthyOpt (jsonGet j "error".toList) = true →
      handleParsedRecord st j =
        .halt (.error (.openAIError ((jsonGet j "error".toList).getD .null)))) ∧
    (truthyOpt (jsonGet j "error".toList) = false →
      handleParsedRecord st j = .cont st) := by
  unfold handleParsedRecord
  constructor <;> intro h2 <;> rw [h, h2] <;> simp

/-- Witness for C7: an error record fails the stream with its payload; a
keep-alive record is skipped. -/
theorem c7_noChoices_error_or_skip_witness :
    hasNonemptyChoices sampleErrJson = false ∧
    handleParsedRecord initAccState sampleErrJson =
      .halt (.error (.openAIError (.str "bad".toList))) ∧
    hasNonemptyChoices sampleKeepAlive = false ∧
    handleParsedRecord initAccState sampleKeepAlive = .cont initAccState :=
  ⟨by decide,
   (c7_noChoices_error_or_skip initAccState sampleErrJson (by decide)).1 (by decide),
   by decide,
   (c7_noChoices_error_or_skip initAccState sampleKeepAlive (by decide)).2 (by decide)⟩

/-- Helper: `computeFunctionCall` yields a function call exactly when both
fragments are non-empty, the name passes the allow-list, and the arguments
parse. -/
theorem computeFunctionCall_ok_some_iff (parse : Str → Option Json)
    (allowed : Option (List Str)) (n a : Str) :
    (∃ fc, computeFunctionCall parse allowed n a = .ok (some fc)) ↔
      (n ≠ [] ∧ a ≠ [] ∧ (∀ l, allowed = some l → n ∈ l) ∧ (parse a).isSome = true) := by
  unfold computeFunctionCall
  by_cases hna : n ≠ [] ∧ a ≠ []
  · rw [if_pos hna]
    obtain ⟨hn, ha⟩ := hna
    cases allowed with
    | none =>
      cases hp : parse a with
      | none => simp [hp, hn, ha]
      | some args => simp [hp, hn, ha]
    | some l =>
      by_cases hmem : n ∈ l
      · cases hp : parse a with
        | none => simp [hp, hn, ha, hmem]
        | some args => simp [hp, hn, ha, hmem]
      · simp [hn, ha, hmem]
  · rw [if_neg hna]
    constructor
    · rintro ⟨fc, hfc⟩; cases hfc
    · rintro ⟨h1, h2, -, -⟩; exact absurd ⟨h1, h2⟩ hna

/-- Helper: with at most one non-empty fragment, `computeFunctionCall`
returns no function call. -/
theorem computeFunctionCall_ok_none (parse : Str → Option Json)
    (allowed : Option (List Str)) (n a : Str) (h : n = [] ∨ a = []) :
    computeFunctionCall parse allowed n a = .ok none := by
  unfold computeFunctionCall
  rw [if_neg]
  rintro ⟨h1, h2⟩
  cases h with
  | inl h => exact h1 h
  | inr h => exact h2 h

/-- C9: `parseStreamedResponse` yields a non-null function call iff both the
accumulated name and arguments are non-empty, the name is in the allow-list
when one is supplied, and the arguments parse; when at most one of the
fragments is non-empty a successful result has a null function call; and a
successful result always has role assistant with null content (not the empty
string) when no text was accumulated. -/
theorem c9_parseStreamedResponse_contract (parse : Str → Option Json)
    (allowed : Option (List Str)) (p n a : Str) :
    ((∃ m fc, parseStreamedResponse parse allowed p n a = .ok m ∧
        m.function_call = some fc) ↔
      (n ≠ [] ∧ a ≠ [] ∧ (∀ l, allowed = some l → n ∈ l) ∧ (parse a).isSome = true)) ∧
    ((n = [] ∨ a = []) →
      ∀ m, parseStreamedResponse parse allowed p n a = .ok m →
        m.function_call = none) ∧
    (∀ m, parseStreamedResponse parse allowed p n a = .ok m →
      m.role = assistantRole ∧ (p = [] → m.content = none)) := by
  refine ⟨?_, ?_, ?_⟩
  · rw [← computeFunctionCall_ok_some_iff parse allowed n a]
    unfold parseStreamedResponse
    constructor
    · rintro ⟨m, fc, hm, hfc⟩
      cases hcf : computeFunctionCall parse allowed n a with
      | error e => rw [hcf] at hm; cases hm
      | ok ofc =>
        cases ofc with
        | none =>
          rw [hcf] at hm
          by_cases hp : p = []
          · rw [if_pos hp] at hm; cases hm
          · rw [if_neg hp] at hm
            cases hm; cases hfc
        | some fc' => exact ⟨fc', rfl⟩
    · rintro ⟨fc, hcf⟩
      rw [hcf]
      exact ⟨_, fc, rfl, rfl⟩
  · intro h m hm
    have hcf := computeFunctionCall_ok_none parse allowed n a h
    unfold parseStreamedResponse at hm
    rw [hcf] at hm
    by_cases hp : p = []
    · rw [if_pos hp] at hm; cases hm
    · rw [if_neg hp] at hm; cases hm; rfl
  · intro m hm
    unfold parseStreamedResponse at hm
    cases hcf : computeFunctionCall parse allowed n a with
    | error e => rw [hcf] at hm; cases hm
    | ok ofc =>
      rw [hcf] at hm
      cases ofc with
      | none =>
        by_cases hp : p = []
        · rw [if_pos hp] at hm; cases hm
        · rw [if_neg hp] at hm; cases hm
          exact ⟨rfl, fun h => absurd h hp⟩
      | some fc =>
        cases hm
        refine ⟨rfl, fun hp => ?_⟩
        simp [hp]

/-- Witness for C9: a stream state with a valid name/arguments pair yields
the function call; one with only a name yields none. -/
theorem c9_parseStreamedResponse_contract_witness :
    (∃ m fc,
      parseStreamedResponse (fun s => if s = "1".toList then some (.num 1) else none)
        (some ["f".toList]) [] "f".toList "1".toList = .ok m ∧
      m.function_call = some fc) ∧
    (∀ m,
      parseStreamedResponse (fun s => if s = "1".toList then some (.num 1) else none)
        (some ["f".toList]) "t".toList "f".toList [] = .ok m →
      m.function_call = none) :=
  ⟨(c9_parseStreamedResponse_contract _ (some ["f".toList]) [] "f".toList "1".toList).1.mpr
      ⟨by decide, by decide, by intro l hl; cases hl; decide, by decide⟩,
   (c9_parseStreamedResponse_contract _ (some ["f".toList]) "t".toList "f".toList []).2.1
      (Or.inr rfl)⟩

/-- C3 counterexample: the Google path returns a message with null content and
null function call as a valid output when the client reports no text and no
function calls, and the Groq path returns one for a choice whose message has
null content and no tool calls — neither fails the call. -/
theorem c3_bothNull_counterexample :
    parseGoogleAIResponse none none = ⟨assistantRole, none, none⟩ ∧
    parseGroqResponse (fun _ => none) ⟨[⟨some ⟨none, none⟩⟩]⟩ =
      .ok ⟨assistantRole, none, none⟩ :=
  ⟨rfl, rfl⟩

/-- C3 amended: the OpenAI streaming path never returns a message with null
content and null function call, and the Anthropic path forces a function call
whenever its text response is empty; the Groq and Google paths do not enforce
the invariant. -/
theorem c3_amended_invariant :
    (∀ (parse : Str → Option Json) allowed p n a m,
      parseStreamedResponse parse allowed p n a = .ok m →
      ¬ (m.content = none ∧ m.function_call = none)) ∧
    (∀ (strip1 strip2 : Str → Str) answers m,
      parseAnthropicAnswers strip1 strip2 answers = .ok m →
      (m.content = none ∨ m.content = some []) → m.function_call ≠ none) := by
  constructor
  · intro parse allowed p n a m hm ⟨hc, hf⟩
    unfold parseStreamedResponse at hm
    cases hcf : computeFunctionCall parse allowed n a with
    | error e => rw [hcf] at hm; cases hm
    | ok ofc =>
      rw [hcf] at hm
      cases ofc with
      | none =>
        by_cases hp : p = []
        · rw [if_pos hp] at hm; cases hm
        · rw [if_neg hp] at hm; cases hm; cases hc
      | some fc => cases hm; cases hf
  · intro strip1 strip2 answers m hm hc
    unfold parseAnthropicAnswers at hm
    cases answers with
    | nil => cases hm
    | cons a rest =>
      cases hfold : anthropicFold strip1 strip2 (a :: rest) [] [] with
      | error e => rw [hfold] at hm; cases hm
      | ok tf =>
        rw [hfold] at hm
        obtain ⟨t, fcs⟩ := tf
        cases t with
        | nil =>
          cases fcs with
          | nil => cases hm
          | cons fc fcs' => cases hm; intro h; cases h
        | cons c t' =>
          cases hm
          cases hc with
          | inl h => cases h
          | inr h => cases h

/-- Witness for the amended C3: a text-only streamed response satisfies the
invariant conclusion. -/
theorem c3_amended_invariant_witness :
    parseStreamedResponse (fun _ => none) none "t".toList [] [] =
      .ok ⟨assistantRole, some "t".toList, none⟩ ∧
    ¬ ((some "t".toList : Option Str) = none ∧ (none : Option FunctionCall) = none) :=
  ⟨rfl, c3_amended_invariant.1 (fun _ => none) none "t".toList [] [] _ rfl⟩

/-- C2 counterexample: on the input consisting of a single system message the
normalizer output retains a system-role message, so the invariant `no system
role remains` fails on this input. -/
theorem c2_system_survives_counterexample :
    (jigAnthropicMessages [⟨ARole.system, .str "s".toList⟩]).map (fun m => m.role) =
      [ARole.user, ARole.system] := rfl

/-- Helper: role sequences distribute over append. -/
theorem rolesOf_append (a b : List AnthropicAIMessage) :
    rolesOf (a ++ b) = rolesOf a ++ rolesOf b := List.map_append _ a b

/-- Helper: the last role is the role of the last message. -/
theorem rolesOf_getLast? (ms : List AnthropicAIMessage) :
    (rolesOf ms).getLast? = ms.getLast?.map (fun m => m.role) := by
  induction ms with
  | nil => rfl
  | cons m rest ih =>
    cases rest with
    | nil => rfl
    | cons m2 rest2 => simpa [rolesOf] using ih

/-- Helper: merging into the last message keeps the role sequence. -/
theorem reduceStep_roles_of_eq {acc : List AnthropicAIMessage}
    {m lm : AnthropicAIMessage} (h : acc.getLast? = some lm)
    (he : lm.role = m.role) : rolesOf (reduceStep acc m) = rolesOf acc := by
  unfold reduceStep
  rw [h]
  dsimp only
  rw [if_pos he]
  have hmem : lm ∈ acc.getLast? := by rw [h]; rfl
  conv_rhs => rw [← List.dropLast_append_getLast? lm hmem]
  rw [rolesOf_append, rolesOf_append]
  rfl

/-- Helper: appending a different-role message appends its role. -/
theorem reduceStep_roles_of_ne {acc : List AnthropicAIMessage}
    {m lm : AnthropicAIMessage} (h : acc.getLast? = some lm)
    (hne : ¬ lm.role = m.role) :
    rolesOf (reduceStep acc m) = rolesOf acc ++ [m.role] := by
  unfold reduceStep
  rw [h]
  dsimp only
  rw [if_neg hne]
  rw [rolesOf_append]
  rfl

/-- Helper: non-empty lists have a last element. -/
theorem exists_getLast?_of_ne_nil {α : Type} {l : List α} (h : l ≠ []) :
    ∃ a, l.getLast? = some a := by
  cases hl : l.getLast? with
  | none => exact absurd (List.getLast?_eq_none_iff.mp hl) h
  | some a => exact ⟨a, rfl⟩

/-- Helper: the grouping fold preserves non-emptiness, the first role, the
no-two-consecutive-same-roles chain, and introduces no new roles. -/
theorem foldl_reduceStep_props (l : List AnthropicAIMessage) :
    ∀ acc, acc ≠ [] → List.Chain' (· ≠ ·) (rolesOf acc) →
      l.foldl reduceStep acc ≠ [] ∧
      (rolesOf (l.foldl reduceStep acc)).head? = (rolesOf acc).head? ∧
      List.Chain' (· ≠ ·) (rolesOf (l.foldl reduceStep acc)) ∧
      (∀ x, x ∈ rolesOf (l.foldl reduceStep acc) → x ∈ rolesOf acc ∨ x ∈ rolesOf l) := by
  induction l with
  | nil => exact fun acc h1 h2 => ⟨h1, rfl, h2, fun x hx => Or.inl hx⟩
  | cons m l ih =>
    intro acc h1 h2
    obtain ⟨lm, hlm⟩ := exists_getLast?_of_ne_nil h1
    rw [List.foldl_cons]
    by_cases he : lm.role = m.role
    · have hr := reduceStep_roles_of_eq hlm he
      have hne : reduceStep acc m ≠ [] := by
        intro hz
        rw [hz] at hr
        exact h1 (List.map_eq_nil_iff.mp hr.symm)
      obtain ⟨ih1, ih2, ih3, ih4⟩ := ih (reduceStep acc m) hne (by rw [hr]; exact h2)
      refine ⟨ih1, by rw [ih2, hr], ih3, fun x hx => ?_⟩
      rcases ih4 x hx with hx1 | hx1
      · rw [hr] at hx1; exact Or.inl hx1
      · exact Or.inr (List.mem_cons_of_mem _ hx1)
    · have hr := reduceStep_roles_of_ne hlm he
      have hne : reduceStep acc m ≠ [] := by
        intro hz
        rw [hz] at hr
        have hr2 : ([] : List ARole) = rolesOf acc ++ [m.role] := hr
        exact absurd hr2.symm (by simp)
      have hch : List.Chain' (· ≠ ·) (rolesOf (reduceStep acc m)) := by
        rw [hr]
        refine List.Chain'.append h2 (List.chain'_singleton _) ?_
        intro x hx y hy
        rw [rolesOf_getLast?, hlm] at hx
        simp at hx hy
        rw [← hx, ← hy]
        exact he
      obtain ⟨ih1, ih2, ih3, ih4⟩ := ih (reduceStep acc m) hne hch
      have hh : (rolesOf (reduceStep acc m)).head? = (rolesOf acc).head? := by
        rw [hr]
        exact List.head?_append_of_ne_nil _ (by
          intro hz
          exact h1 (List.map_eq_nil_iff.mp hz))
      refine ⟨ih1, by rw [ih2, hh], ih3, fun x hx => ?_⟩
      rcases ih4 x hx with hx1 | hx1
      · rw [hr] at hx1
        rcases List.mem_append.mp hx1 with hx2 | hx2
        · exact Or.inl hx2
        · simp at hx2
          exact Or.inr (by rw [hx2]; exact List.mem_cons_self _ _)
      · exact Or.inr (List.mem_cons_of_mem _ hx1)

/-- Helper: the trailing-role test reads the last message role. -/
theorem lastIsAssistant_eq (ms : List AnthropicAIMessage) (lm : AnthropicAIMessage)
    (h : ms.getLast? = some lm) :
    lastIsAssistant ms = (match lm.role with | ARole.assistant => true | _ => false) := by
  unfold lastIsAssistant
  rw [h]

/-- C2 amended: for every input list that contains no system-role message (as
`prepareAnthropicPayload` guarantees before calling the normalizer), the
output of `jigAnthropicMessages` has no two consecutive same-role messages,
starts with a user message, does not end with an assistant message, and
contains no system-role message.  (Without the no-system precondition the
last invariant fails, see the counterexample.) -/
theorem c2_amended_normalizer_invariants (ms : List AnthropicAIMessage)
    (hns : ∀ m ∈ ms, m.role ≠ ARole.system) :
    List.Chain' (· ≠ ·) (rolesOf (jigAnthropicMessages ms)) ∧
    (rolesOf (jigAnthropicMessages ms)).head? = some ARole.user ∧
    (rolesOf (jigAnthropicMessages ms)).getLast? ≠ some ARole.assistant ∧
    ∀ m ∈ jigAnthropicMessages ms, m.role ≠ ARole.system := by
  unfold jigAnthropicMessages
  -- the leading fixup yields a non-empty list with user head and no system role
  have step1 : ∃ x rest,
      (if headNotUser ms = true then placeholderUser :: ms else ms) = x :: rest ∧
      x.role = ARole.user ∧
      (∀ m ∈ x :: rest, m.role ≠ ARole.system) := by
    cases hh : headNotUser ms with
    | true =>
      refine ⟨placeholderUser, ms, by rw [if_pos rfl], rfl, ?_⟩
      intro m hm
      rcases List.mem_cons.mp hm with hm1 | hm1
      · rw [hm1]; intro hz; cases hz
      · exact hns m hm1
    | false =>
      unfold headNotUser at hh
      cases ms with
      | nil => simp at hh
      | cons m0 rest =>
        simp only [List.head?_cons] at hh
        have hrole : m0.role = ARole.user := by
          cases hr : m0.role with
          | user => rfl
          | assistant => rw [hr] at hh; exact Bool.noConfusion hh
          | system => rw [hr] at hh; exact Bool.noConfusion hh
        exact ⟨m0, rest, rfl, hrole, hns⟩

  obtain ⟨x, rest, hx, hxu, hxs⟩ := step1
  rw [hx]
  dsimp only
  have hfold : (x :: rest).foldl reduceStep [] = rest.foldl reduceStep [x] := by
    rw [List.foldl_cons]
    rfl
  rw [hfold]
  obtain ⟨h1, h2, h3, h4⟩ :=
    foldl_reduceStep_props rest [x] (by intro hz; cases hz)
      (by simp [rolesOf, List.chain'_singleton])
  have hhead : (rolesOf (rest.foldl reduceStep [x])).head? = some ARole.user := by
    rw [h2]
    simp [rolesOf, hxu]
  have hnosys : ∀ m ∈ rest.foldl reduceStep [x], m.role ≠ ARole.system := by
    intro m hm hsys
    have hmem : m.role ∈ rolesOf (rest.foldl reduceStep [x]) :=
      List.mem_map_of_mem _ hm
    rcases h4 _ hmem with hz | hz
    · have hz2 : m.role = x.role := by
        have he : rolesOf [x] = [x.role] := rfl
        rw [he] at hz
        exact List.mem_singleton.mp hz
      rw [hsys] at hz2
      rw [← hz2] at hxu
      cases hxu
    · simp [rolesOf] at hz
      obtain ⟨m2, hm2, hm2r⟩ := hz
      exact hxs m2 (List.mem_cons_of_mem _ hm2) (by rw [hm2r, hsys])
  obtain ⟨lm, hlm⟩ := exists_getLast?_of_ne_nil h1
  cases hl : lastIsAssistant (rest.foldl reduceStep [x]) with
  | false =>
    rw [if_neg (by simp)]
    refine ⟨h3, hhead, ?_, hnosys⟩
    have hl2 : (match lm.role with | ARole.assistant => true | _ => false) = false := by
      rw [← lastIsAssistant_eq _ lm hlm]
      exact hl
    rw [rolesOf_getLast?, hlm]
    intro hz
    simp at hz
    rw [hz] at hl2
    exact Bool.noConfusion hl2
  | true =>
    rw [if_pos rfl]
    have hl2 : (match lm.role with | ARole.assistant => true | _ => false) = true := by
      rw [← lastIsAssistant_eq _ lm hlm]
      exact hl
    have hlr : lm.role = ARole.assistant := by
      cases hr : lm.role with
      | user => rw [hr] at hl2; exact Bool.noConfusion hl2
      | assistant => rfl
      | system => rw [hr] at hl2; exact Bool.noConfusion hl2
    refine ⟨?_, ?_, ?_, ?_⟩
    · rw [rolesOf_append]
      refine List.Chain'.append h3 (List.chain'_singleton _) ?_
      intro a ha b hb
      rw [rolesOf_getLast?, hlm] at ha
      have ha2 : lm.role = a := by simpa using ha
      have hb2 : ARole.user = b := by simpa [rolesOf, placeholderUser] using hb
      rw [← ha2, ← hb2, hlr]
      intro hz
      cases hz
    · rw [rolesOf_append]
      rw [List.head?_append_of_ne_nil _ (by
        intro hz
        exact h1 (List.map_eq_nil_iff.mp hz))]
      exact hhead
    · rw [rolesOf_append]
      have : (rolesOf (rest.foldl reduceStep [x]) ++ rolesOf [placeholderUser]).getLast?
          = some ARole.user := by
        simp [rolesOf, placeholderUser]
      rw [this]
      intro hz
      simp at hz
    · intro m hm
      rcases List.mem_append.mp hm with hm1 | hm1
      · exact hnosys m hm1
      · simp at hm1
        rw [hm1]
        intro hz
        cases hz

/-- Witness for the amended C2, at the spec scenario input `[assistant hi]`,
which normalizes to user-assistant-user. -/
theorem c2_amended_normalizer_invariants_witness :
    (∀ m ∈ [(⟨ARole.assistant, .str "hi".toList⟩ : AnthropicAIMessage)],
      m.role ≠ ARole.system) ∧
    (rolesOf (jigAnthropicMessages [⟨ARole.assistant, .str "hi".toList⟩]) =
      [ARole.user, ARole.assistant, ARole.user]) ∧
    List.Chain' (· ≠ ·)
      (rolesOf (jigAnthropicMessages [⟨ARole.assistant, .str "hi".toList⟩])) := by
  refine ⟨?_, rfl, ?_⟩
  · intro m hm
    simp at hm
    rw [hm]
    intro hz
    cases hz
  · refine (c2_amended_normalizer_invariants [⟨ARole.assistant, .str "hi".toList⟩] ?_).1
    intro m hm
    simp at hm
    rw [hm]
    intro hz
    cases hz

/-- Helper: shifting the cumulative remediation iteration by one failed
attempt. -/
theorem iterRemediateFrom_shift (f : Nat → ORes) (i : Nat) (st : ORetryState)
    (c : Option Str) (hf : f i = .failure c) :
    ∀ k, iterRemediateFrom f (i + 1) (remediateOpenAI i c st) k =
      iterRemediateFrom f i st (k + 1) := by
  intro k
  induction k with
  | zero =>
    show remediateOpenAI i c st = iterRemediateFrom f i st 1
    unfold iterRemediateFrom
    rw [Nat.add_zero, hf]
    rfl
  | succ k ih =>
    show iterRemediateFrom f (i + 1) (remediateOpenAI i c st) (k + 1) = _
    unfold iterRemediateFrom
    have harith : i + 1 + k = i + (k + 1) := by omega
    rw [harith, ih]

/-- Helper: the ghost state trace of the OpenAI retry loop is exactly the
cumulative iteration of the remediation function. -/
theorem openAiGo_states (f : Nat → ORes) (retries : Nat) :
    ∀ rem i st k, k < ((openAiGo f retries rem i st).2).length →
      ((openAiGo f retries rem i st).2)[k]? = some (iterRemediateFrom f i st k) := by
  intro rem
  induction rem with
  | zero => intro i st k h; simp [openAiGo] at h
  | succ rem ih =>
    intro i st k h
    cases hf : f i with
    | success m =>
      have htr : (openAiGo f retries (rem + 1) i st).2 = [st] := by
        simp only [openAiGo, hf]
      rw [htr] at h ⊢
      cases k with
      | zero => simp [iterRemediateFrom]
      | succ k => simp at h
    | failure c =>
      have htr : (openAiGo f retries (rem + 1) i st).2 =
          st :: (openAiGo f retries rem (i + 1) (remediateOpenAI i c st)).2 := by
        simp only [openAiGo, hf]
      rw [htr] at h ⊢
      cases k with
      | zero => simp [iterRemediateFrom]
      | succ k =>
        have hk : k < ((openAiGo f retries rem (i + 1) (remediateOpenAI i c st)).2).length := by
          simpa using h
        rw [List.getElem?_cons_succ]
        rw [ih _ _ k hk, iterRemediateFrom_shift f i st c hf k]

/-- C4: the remediation applied between OpenAI-compatible retry attempts
matches the section 4.4 precedence table exactly, and the retry loop applies
it cumulatively to the same carried payload/config state: the state in force
at attempt `k` is the `k`-fold iterated remediation of the initial state,
never reset. -/
theorem c4_remediation_matches_table :
    (∀ i errorCode st,
      remediateOpenAI i errorCode st = specRemediationTable i errorCode st) ∧
    (∀ f retries st k, k < ((callOpenAiWithRetriesModel f retries st).2).length →
      ((callOpenAiWithRetriesModel f retries st).2)[k]? =
        some (iterRemediateFrom f 0 st k)) := by
  constructor
  · intro i e st
    unfold remediateOpenAI specRemediationTable
    dsimp only
    split_ifs <;> rfl
  · intro f retries st k h
    exact openAiGo_states f retries (retries + 1) 0 st k h

/-- Witness for C4: the third failed attempt with an azure content-filter
error, on a concrete azure state. -/
theorem c4_remediation_matches_table_witness :
    remediateOpenAI 2 (some cfCode) samplePayloadState =
      specRemediationTable 2 (some cfCode) samplePayloadState ∧
    ((callOpenAiWithRetriesModel (fun _ => ORes.failure (some cfCode)) 5
        samplePayloadState).2)[2]? =
      some (iterRemediateFrom (fun _ => ORes.failure (some cfCode)) 0
        samplePayloadState 2) :=
  ⟨c4_remediation_matches_table.1 2 (some cfCode) samplePayloadState,
   c4_remediation_matches_table.2 (fun _ => ORes.failure (some cfCode)) 5
     samplePayloadState 2 (by decide)⟩

/-- Helper: the OpenAI retry loop makes at most `remaining` attempts. -/
theorem openAiGo_length_le (f : Nat → ORes) (retries : Nat) :
    ∀ rem i st, ((openAiGo f retries rem i st).2).length ≤ rem := by
  intro rem
  induction rem with
  | zero => intro i st; simp [openAiGo]
  | succ rem ih =>
    intro i st
    unfold openAiGo
    cases f i with
    | success m => simp
    | failure c =>
      simpa using Nat.succ_le_succ (ih (i + 1) (remediateOpenAI i c st))

/-- Helper: when every attempt fails, the OpenAI loop exhausts its budget and
throws the aggregate error embedding the `retries` parameter. -/
theorem openAiGo_allFail (f : Nat → ORes) (retries : Nat) :
    ∀ rem i st, (∀ k, k < rem → ∀ m, f (i + k) ≠ .success m) →
      (openAiGo f retries rem i st).1 = .error retries ∧
      ((openAiGo f retries rem i st).2).length = rem := by
  intro rem
  induction rem with
  | zero => intro i st _; exact ⟨rfl, rfl⟩
  | succ rem ih =>
    intro i st hfail
    cases hf : f i with
    | success m => exact absurd hf (by simpa using hfail 0 (Nat.succ_pos rem) m)
    | failure c =>
      have hrec := ih (i + 1) (remediateOpenAI i c st) (by
        intro k hk m
        have := hfail (k + 1) (by omega) m
        simpa [Nat.add_assoc, Nat.add_comm 1 k] using this)
      constructor
      · show (openAiGo f retries (rem + 1) i st).1 = .error retries
        unfold openAiGo
        rw [hf]
        exact hrec.1
      · show ((openAiGo f retries (rem + 1) i st).2).length = rem + 1
        unfold openAiGo
        rw [hf]
        simpa using hrec.2

/-- Helper: the Anthropic retry loop makes at most `remaining` attempts. -/
theorem anthropicGo_le (f : Nat → ARes) (attempts : Nat) :
    ∀ rem i model, (anthropicGo f attempts rem i model).2 ≤ rem := by
  intro rem
  induction rem with
  | zero => intro i model; simp [anthropicGo]
  | succ rem ih =>
    intro i model
    unfold anthropicGo
    cases f i with
    | success m => simp
    | failure rl =>
      simpa using Nat.succ_le_succ (ih (i + 1) _)

/-- Helper: when every attempt fails, the Anthropic loop exhausts its budget
and throws the aggregate error with the attempt bound and no last response. -/
theorem anthropicGo_allFail (f : Nat → ARes) (attempts : Nat) :
    ∀ rem i model, (∀ k, k < rem → ∀ m, f (i + k) ≠ .success m) →
      (anthropicGo f attempts rem i model).1 = .error ⟨attempts, none⟩ ∧
      (anthropicGo f attempts rem i model).2 = rem := by
  intro rem
  induction rem with
  | zero => intro i model _; exact ⟨rfl, rfl⟩
  | succ rem ih =>
    intro i model hfail
    cases hf : f i with
    | success m => exact absurd hf (by simpa using hfail 0 (Nat.succ_pos rem) m)
    | failure rl =>
      have hrec := ih (i + 1) (if rl then ClaudeModelM.sonnet else
          (if i = attempts - 1 then ClaudeModelM.sonnet else model)) (by
        intro k hk m
        have := hfail (k + 1) (by omega) m
        simpa [Nat.add_assoc, Nat.add_comm 1 k] using this)
      constructor
      · show (anthropicGo f attempts (rem + 1) i model).1 = .error ⟨attempts, none⟩
        unfold anthropicGo
        rw [hf]
        exact hrec.1
      · show (anthropicGo f attempts (rem + 1) i model).2 = rem + 1
        unfold anthropicGo
        rw [hf]
        simpa using hrec.2

/-- Helper: the Groq retry loop makes at most `remaining` attempts. -/
theorem groqGo_le (f : Nat → Option ParsedResponseMessage) (retries : Nat) :
    ∀ rem i, (groqGo f retries rem i).2 ≤ rem := by
  intro rem
  induction rem with
  | zero => intro i; simp [groqGo]
  | succ rem ih =>
    intro i
    unfold groqGo
    cases f i with
    | some m => simp
    | none => simpa using Nat.succ_le_succ (ih (i + 1))

/-- Helper: when every attempt fails, the Groq loop exhausts its budget. -/
theorem groqGo_allFail (f : Nat → Option ParsedResponseMessage) (retries : Nat) :
    ∀ rem i, (∀ k, k < rem → f (i + k) = none) →
      (groqGo f retries rem i).1 = .error ⟨retries, none⟩ ∧
      (groqGo f retries rem i).2 = rem := by
  intro rem
  induction rem with
  | zero => intro i _; exact ⟨rfl, rfl⟩
  | succ rem ih =>
    intro i hfail
    have hf : f i = none := by simpa using hfail 0 (Nat.succ_pos rem)
    have hrec := ih (i + 1) (by
      intro k hk
      have := hfail (k + 1) (by omega)
      simpa [Nat.add_assoc, Nat.add_comm 1 k] using this)
    constructor
    · show (groqGo f retries (rem + 1) i).1 = .error ⟨retries, none⟩
      unfold groqGo
      rw [hf]
      exact hrec.1
    · show (groqGo f retries (rem + 1) i).2 = rem + 1
      unfold groqGo
      rw [hf]
      simpa using hrec.2

/-- C8 counterexample: with six injected failures at the default bound the
OpenAI path makes six attempts but the aggregate error embeds `5`, the retry
bound, not the attempt count. -/
theorem c8_attemptCount_counterexample :
    (callOpenAiWithRetriesModel (fun _ => ORes.failure none) 5 samplePayloadState).1 =
      .error 5 ∧
    ((callOpenAiWithRetriesModel (fun _ => ORes.failure none) 5 samplePayloadState).2).length = 6 ∧
    (5 : Nat) ≠ 6 :=
  ⟨rfl, rfl, by decide⟩

/-- C8 amended: each retry path is bounded — the OpenAI-compatible loop makes
at most `1 + retries` attempts and the Anthropic and Groq loops at most their
attempt totals (5 by default) — and when every attempt fails each path throws
an aggregate error, never returning a partial result; the error embeds the
retry parameter on the OpenAI path (one less than the attempts actually made)
and the attempt total on the Anthropic and Groq paths, with no last raw
response available when every attempt failed. -/
theorem c8_amended_retry_bounds :
    (∀ f retries st, ((callOpenAiWithRetriesModel f retries st).2).length ≤ retries + 1) ∧
    (∀ f retries st, (∀ i, i ≤ retries → ∀ m, f i ≠ ORes.success m) →
      (callOpenAiWithRetriesModel f retries st).1 = .error retries ∧
      ((callOpenAiWithRetriesModel f retries st).2).length = retries + 1) ∧
    (∀ f attempts model, (callAnthropicWithRetriesModel f attempts model).2 ≤ attempts) ∧
    (∀ f attempts model, (∀ i, i < attempts → ∀ m, f i ≠ ARes.success m) →
      (callAnthropicWithRetriesModel f attempts model).1 = .error ⟨attempts, none⟩ ∧
      (callAnthropicWithRetriesModel f attempts model).2 = attempts) ∧
    (∀ f retries, (callGroqWithRetriesModel f retries).2 ≤ retries) ∧
    (∀ f retries, (∀ i, i < retries → f i = none) →
      (callGroqWithRetriesModel f retries).1 = .error ⟨retries, none⟩ ∧
      (callGroqWithRetriesModel f retries).2 = retries) := by
  refine ⟨?_, ?_, ?_, ?_, ?_, ?_⟩
  · intro f retries st
    exact openAiGo_length_le f retries (retries + 1) 0 st
  · intro f retries st hfail
    exact openAiGo_allFail f retries (retries + 1) 0 st (by
      intro k hk m
      have hh := hfail k (by omega) m
      simpa using hh)
  · intro f attempts model
    exact anthropicGo_le f attempts attempts 0 model
  · intro f attempts model hfail
    exact anthropicGo_allFail f attempts attempts 0 model (by
      intro k hk m
      have hh := hfail k (by omega) m
      simpa using hh)
  · intro f retries
    exact groqGo_le f retries retries 0
  · intro f retries hfail
    exact groqGo_allFail f retries retries 0 (by
      intro k hk
      have hh := hfail k (by omega)
      simpa using hh)

/-- Witness for the amended C8 at the default bounds with all-failing
attempts. -/
theorem c8_amended_retry_bounds_witness :
    (callOpenAiWithRetriesModel (fun _ => ORes.failure none) 5 samplePayloadState).1 =
      .error 5 ∧
    (callAnthropicWithRetriesModel (fun _ => ARes.failure false) 5 ClaudeModelM.haiku).1 =
      .error ⟨5, none⟩ ∧
    (callGroqWithRetriesModel (fun _ => none) 5).1 = .error ⟨5, none⟩ :=
  ⟨(c8_amended_retry_bounds.2.1 (fun _ => ORes.failure none) 5 samplePayloadState
      (fun i _ m hm => ORes.noConfusion hm)).1,
   (c8_amended_retry_bounds.2.2.2.1 (fun _ => ARes.failure false) 5 ClaudeModelM.haiku
      (fun i _ m hm => ARes.noConfusion hm)).1,
   (c8_amended_retry_bounds.2.2.2.2.2 (fun _ => none) 5
      (fun i _ => rfl)).1⟩

/-- C5 counterexample: a stream whose final record is the JSON value
containing the sentinel only as a proper substring terminates cleanly, yet no
segment of the stream equals the sentinel literal (raw or trimmed); so clean
termination is not reserved to records equal to `[DONE]`. -/
theorem c5_sentinel_equality_counterexample :
    (runStream sentinelParse none initAccState [sentinelBuf]).result =
      .ok ⟨assistantRole, some "Hi".toList, none⟩ ∧
    ∀ seg ∈ splitDM sentinelBuf, seg ≠ doneMark ∧ jsTrim seg ≠ doneMark :=
  ⟨rfl, by decide⟩

/-- C5 amended: end-of-stream is signaled by a streamed segment that contains
the literal `[DONE]` as a substring (the source tests with `includes`, not
equality): any non-empty segment containing it finalizes the accumulated
state into the response, and a segment not containing it never terminates the
stream cleanly. -/
theorem c5_amended_sentinel_substring (parse : Str → Option Json)
    (allowed : Option (List Str)) (st : AccState) (seg : Str) :
    (seg ≠ [] → containsSub doneMark seg = true →
      processSegment parse allowed st seg =
        .halt ((parseStreamedResponse parse allowed st.paragraph
          st.functionCallName st.functionCallArgs).mapError .streamParse)) ∧
    (containsSub doneMark seg = false →
      ∀ m, processSegment parse allowed st seg ≠ .halt (.ok m)) := by
  constructor
  · intro hne hdone
    unfold processSegment
    rw [if_neg hne, if_pos hdone]
  · intro hdone m
    unfold processSegment
    by_cases hne : seg = []
    · rw [if_pos hne]
      intro hz
      cases hz
    · rw [if_neg hne, if_neg (by rw [hdone]; exact Bool.noConfusion)]
      cases hp : parse (jsTrim seg) with
      | none => intro hz; cases hz
      | some j =>
        unfold handleParsedRecord
        dsimp only
        by_cases hch : hasNonemptyChoices j = true
        · rw [if_pos hch]
          intro hz
          cases hz
        · rw [if_neg hch]
          by_cases herr : truthyOpt (jsonGet j "error".toList) = true
          · rw [if_pos herr]
            intro hz
            cases hz
          · rw [if_neg herr]
            intro hz
            cases hz

/-- Witness for the amended C5: the literal sentinel segment finalizes the
(empty) accumulated state, and a data segment does not cleanly stop the
stream. -/
theorem c5_amended_sentinel_substring_witness :
    containsSub doneMark "[DONE]".toList = true ∧
    processSegment sentinelParse none initAccState "[DONE]".toList =
      .halt ((parseStreamedResponse sentinelParse none [] [] []).mapError
        .streamParse) ∧
    containsSub doneMark sentinelRec1 = false :=
  ⟨by decide,
   (c5_amended_sentinel_substring sentinelParse none initAccState
      "[DONE]".toList).1 (by decide) (by decide),
   by decide⟩

/-- Helper: a segment halting the stream with a success can only be a
sentinel-bearing segment — every other halt is an error. -/
theorem processSegment_halt_ok (parse : Str → Option Json)
    (allowed : Option (List Str)) (st : AccState) (seg : Str) (m : ParsedResponseMessage)
    (h : processSegment parse allowed st seg = .halt (.ok m)) :
    containsSub doneMark seg = true := by
  unfold processSegment at h
  by_cases hne : seg = []
  · rw [if_pos hne] at h; cases h
  · rw [if_neg hne] at h
    by_cases hdone : containsSub doneMark seg = true
    · exact hdone
    · rw [if_neg hdone] at h
      cases hp : parse (jsTrim seg) with
      | none => rw [hp] at h; cases h
      | some j =>
        rw [hp] at h
        unfold handleParsedRecord at h
        dsimp only at h
        by_cases hch : hasNonemptyChoices j = true
        · rw [if_pos hch] at h; cases h
        · rw [if_neg hch] at h
          by_cases herr : truthyOpt (jsonGet j "error".toList) = true
          · rw [if_pos herr] at h; cases h
          · rw [if_neg herr] at h; cases h

/-- Helper: lifting the previous fact through the segment fold. -/
theorem procSegs_halt_ok (parse : Str → Option Json) (allowed : Option (List Str)) :
    ∀ segs (st : AccState) (m : ParsedResponseMessage),
      procSegs parse allowed st segs = .halt (.ok m) →
      ∃ seg ∈ segs, containsSub doneMark seg = true := by
  intro segs
  induction segs with
  | nil => intro st m h; cases h
  | cons seg rest ih =>
    intro st m h
    unfold procSegs at h
    cases hs : processSegment parse allowed st seg with
    | cont st' =>
      rw [hs] at h
      obtain ⟨seg2, hseg2, hdone⟩ := ih st' m h
      exact ⟨seg2, List.mem_cons_of_mem _ hseg2, hdone⟩
    | halt r =>
      rw [hs] at h
      cases h
      exact ⟨seg, List.mem_cons_self _ _, processSegment_halt_ok _ _ _ _ _ hs⟩

/-- C6: if the transport reader reports done before a sentinel record was
observed, the streaming call fails with the `ended prematurely` error
regardless of the accumulated state; a stream only ever ends cleanly through
a segment containing the terminal sentinel, never via transport EOF alone. -/
theorem c6_premature_end (parse : Str → Option Json) (allowed : Option (List Str)) :
    (∀ st : AccState, (runStream parse allowed st []).result = .error .endedPrematurely) ∧
    (∀ bs (st stH : AccState) (m : ParsedResponseMessage),
      runStream parse allowed st bs = .halted (.ok m) stH →
      ∃ b ∈ bs, ∃ seg ∈ splitDM (stH.partialChunk ++ b),
        containsSub doneMark seg = true) := by
  constructor
  · intro st; rfl
  · intro bs
    induction bs with
    | nil => intro st stH m h; cases h
    | cons b rest ih =>
      intro st stH m h
      unfold runStream at h
      cases hb : processBuffer parse allowed st b with
      | halt r =>
        rw [hb] at h
        cases h
        unfold processBuffer at hb
        obtain ⟨seg, hseg, hdone⟩ := procSegs_halt_ok parse allowed _ _ m hb
        exact ⟨b, List.mem_cons_self _ _, seg, hseg, hdone⟩
      | cont st' =>
        rw [hb] at h
        obtain ⟨b2, hb2, seg, hseg, hdone⟩ := ih st' stH m h
        exact ⟨b2, List.mem_cons_of_mem _ hb2, seg, hseg, hdone⟩

/-- Witness for C6: transport EOF on the empty read list fails even from the
initial state, and the concrete sentinel-terminated stream ends cleanly with
its sentinel segment. -/
theorem c6_premature_end_witness :
    (runStream sentinelParse none initAccState []).result =
      .error .endedPrematurely ∧
    ∃ b ∈ [sentinelGoodBuf],
      ∃ seg ∈ splitDM (initAccState.partialChunk ++ b),
        containsSub doneMark seg = true :=
  ⟨(c6_premature_end sentinelParse none).1 initAccState,
   (c6_premature_end sentinelParse none).2 [sentinelGoodBuf] initAccState
     initAccState ⟨assistantRole, some "Hi".toList, none⟩ rfl⟩

/-! String and split infrastructure for the framing proof. -/

/-- The boolean prefix test agrees with `List.IsPrefix`. -/
theorem prefixOfB_iff (a b : Str) : prefixOfB a b = true ↔ a <+: b := by
  induction a generalizing b with
  | nil => simp [prefixOfB]
  | cons x xs ih =>
    cases b with
    | nil => simp [prefixOfB]
    | cons y ys => simp [prefixOfB, List.cons_prefix_cons, ih]

/-- The boolean substring test agrees with `List.IsInfix`. -/
theorem containsSub_iff (n h : Str) : containsSub n h = true ↔ n <:+: h := by
  induction h with
  | nil => simp [containsSub, List.isEmpty_iff]
  | cons c rest ih => simp [containsSub, prefixOfB_iff, ih, List.infix_cons_iff]

/-- A longer string is never a prefix. -/
theorem prefixOfB_false_of_lt (a b : Str) (h : b.length < a.length) :
    prefixOfB a b = false := by
  by_contra hb
  have hp := (prefixOfB_iff a b).mp (by simpa using hb)
  exact absurd hp.length_le (by omega)

/-- A string is a prefix of itself followed by anything. -/
theorem prefixOfB_self_append (a w : Str) : prefixOfB a (a ++ w) = true :=
  (prefixOfB_iff _ _).mpr (List.prefix_append a w)

/-- The marker never starts at a newline. -/
theorem prefixOfB_mk_nl (w : Str) : prefixOfB mk (nlc :: w) = false := rfl

/-- The marker is not a prefix of a record's text followed by anything. -/
theorem prefixOfB_mk_append_false (r w : Str) (h1 : prefixOfB mk r = false)
    (h2 : prefixOfB r mk = false) : prefixOfB mk (r ++ w) = false := by
  by_contra hb
  have hp : mk <+: r ++ w := (prefixOfB_iff _ _).mp (by simpa using hb)
  have hr : r <+: r ++ w := List.prefix_append r w
  rcases List.prefix_or_prefix_of_prefix hp hr with h | h
  · exact absurd ((prefixOfB_iff _ _).mpr h) (by simp [h1])
  · exact absurd ((prefixOfB_iff _ _).mpr h) (by simp [h2])

/-- One unfolding step of the fueled split worker. -/
theorem splitAfterF_cons (f : Nat) (c : Char) (rest : Str) :
    splitAfterF (f + 1) (c :: rest) =
      if c = nlc ∧ prefixOfB mk rest = true then
        ([nlc], (splitAfterF f (rest.drop 6)).1 :: (splitAfterF f (rest.drop 6)).2)
      else
        (c :: (splitAfterF f rest).1, (splitAfterF f rest).2) := by
  rcases hA : splitAfterF f (rest.drop 6) with ⟨a1, a2⟩
  rcases hB : splitAfterF f rest with ⟨b1, b2⟩
  unfold splitAfterF
  rw [hA, hB]

/-- The fueled split worker is fuel-independent above the string length. -/
theorem splitAfterF_congr : ∀ (n : Nat) (s : Str), s.length ≤ n →
    ∀ f g, s.length < f → s.length < g → splitAfterF f s = splitAfterF g s := by
  intro n
  induction n with
  | zero =>
    intro s hs f g hf hg
    have hsz : s = [] := List.length_eq_zero.mp (Nat.le_zero.mp hs)
    subst hsz
    cases f with
    | zero => omega
    | succ f =>
      cases g with
      | zero => omega
      | succ g => rfl
  | succ n ih =>
    intro s hs f g hf hg
    cases s with
    | nil =>
      cases f with
      | zero => omega
      | succ f =>
        cases g with
        | zero => omega
        | succ g => rfl
    | cons c rest =>
      cases f with
      | zero => omega
      | succ f =>
        cases g with
        | zero => omega
        | succ g =>
          rw [splitAfterF_cons, splitAfterF_cons]
          have hr : rest.length ≤ n := by simp at hs; omega
          have hd : (rest.drop 6).length ≤ n := by
            have := List.length_drop 6 rest
            omega
          by_cases hcond : c = nlc ∧ prefixOfB mk rest = true
          · rw [if_pos hcond, if_pos hcond]
            have hrec := ih (rest.drop 6) hd f g
              (by have := List.length_drop 6 rest; simp at hf; omega)
              (by have := List.length_drop 6 rest; simp at hg; omega)
            rw [hrec]
          · rw [if_neg hcond, if_neg hcond]
            have hrec := ih rest hr f g (by simp at hf; omega) (by simp at hg; omega)
            rw [hrec]

/-- The split of the empty string. -/
theorem splitAfter_nil : splitAfter [] = ([], []) := rfl

/-- The split at a newline followed by the marker closes the segment. -/
theorem splitAfter_cons_pos (c : Char) (rest : Str)
    (h : c = nlc ∧ prefixOfB mk rest = true) :
    splitAfter (c :: rest) =
      ([nlc], (splitAfter (rest.drop 6)).1 :: (splitAfter (rest.drop 6)).2) := by
  show splitAfterF ((c :: rest).length + 1) (c :: rest) = _
  have hl : (c :: rest).length + 1 = rest.length + 1 + 1 := by simp
  rw [hl, splitAfterF_cons, if_pos h]
  have hc : splitAfterF (rest.length + 1) (rest.drop 6) = splitAfter (rest.drop 6) := by
    apply splitAfterF_congr rest.length (rest.drop 6)
      (by have := List.length_drop 6 rest; omega)
    · have := List.length_drop 6 rest; omega
    · omega
  rw [hc]

/-- The split elsewhere extends the current segment. -/
theorem splitAfter_cons_neg (c : Char) (rest : Str)
    (h : ¬ (c = nlc ∧ prefixOfB mk rest = true)) :
    splitAfter (c :: rest) =
      (c :: (splitAfter rest).1, (splitAfter rest).2) := by
  show splitAfterF ((c :: rest).length + 1) (c :: rest) = _
  have hl : (c :: rest).length + 1 = rest.length + 1 + 1 := by simp
  rw [hl, splitAfterF_cons, if_neg h]
  have hc : splitAfterF (rest.length + 1) rest = splitAfter rest :=
    splitAfterF_congr rest.length rest (le_refl _) _ _ (by omega) (by omega)
  rw [hc]

/-! Junk (stale newline runs) and trim lemmas. -/

/-- No junk. -/
theorem junkL_zero : junkL 0 = [] := rfl

/-- Junk grows at the front. -/
theorem junkL_succ (q : Nat) : junkL (q + 1) = nlc :: junkL q := rfl

/-- Junk grows at the back. -/
theorem junkL_snoc (q : Nat) : junkL q ++ [nlc] = junkL (q + 1) :=
  (List.replicate_succ' q nlc).symm

/-- Junk is made of newlines. -/
theorem mem_junkL {c : Char} {q : Nat} (h : c ∈ junkL q) : c = nlc :=
  List.eq_of_mem_replicate h

/-- The newline is whitespace. -/
theorem isWS_nlc : isWS nlc = true := rfl

/-- Left trim eats a whitespace head character. -/
theorem trimL_cons_ws {c : Char} (w : Str) (h : isWS c = true) :
    trimL (c :: w) = trimL w := by
  unfold trimL
  rw [List.dropWhile_cons, if_pos h]

/-- Left trim keeps a non-whitespace head character. -/
theorem trimL_cons_not_ws {c : Char} (w : Str) (h : isWS c = false) :
    trimL (c :: w) = c :: w := by
  unfold trimL
  rw [List.dropWhile_cons, if_neg (by simp [h])]

/-- Left trim eats a whole junk prefix. -/
theorem trimL_junk_append (q : Nat) (z : Str) : trimL (junkL q ++ z) = trimL z := by
  induction q with
  | zero => rfl
  | succ n ih =>
    rw [junkL_succ, List.cons_append, trimL_cons_ws _ isWS_nlc, ih]

/-- Trimming ignores a junk prefix. -/
theorem jsTrim_junk_append (q : Nat) (z : Str) : jsTrim (junkL q ++ z) = jsTrim z := by
  unfold jsTrim
  rw [trimL_junk_append]

/-- Junk trims to nothing. -/
theorem jsTrim_junk (q : Nat) : jsTrim (junkL q) = [] := by
  have h := jsTrim_junk_append q []
  simpa using h

/-- Left trim never lengthens a string. -/
theorem trimL_length_le (s : Str) : (trimL s).length ≤ s.length :=
  (List.dropWhile_suffix isWS).length_le

/-- Right trim never lengthens a string. -/
theorem trimR_length_le (s : Str) : (trimR s).length ≤ s.length := by
  unfold trimR
  have h := (List.dropWhile_suffix (l := s.reverse) isWS).length_le
  simpa using h

/-- A string fixed by the full trim is fixed by each side. -/
theorem trim_fix_of_jsTrim {r : Str} (h : jsTrim r = r) :
    trimL r = r ∧ trimR r = r := by
  have hL : trimL r = r := by
    have h1 : (trimR (trimL r)).length ≤ (trimL r).length := trimR_length_le _
    have h2 : (trimL r).length ≤ r.length := trimL_length_le r
    have h3 : trimR (trimL r) = r := h
    have hlen : (trimL r).length = r.length := by
      rw [h3] at h1
      omega
    exact (List.dropWhile_suffix isWS).eq_of_length hlen
  refine ⟨hL, ?_⟩
  have := h
  unfold jsTrim at this
  rw [hL] at this
  exact this

/-- A left-trim fixed point has a non-whitespace head. -/
theorem head_not_ws_of_trimL {c : Char} {w : Str} (h : trimL (c :: w) = c :: w) :
    isWS c = false := by
  by_contra hb
  have hc : isWS c = true := by
    cases hx : isWS c
    · exact absurd hx hb
    · rfl
  have h2 := trimL_cons_ws w hc
  rw [h] at h2
  have h3 : (c :: w).length ≤ w.length := by
    rw [h2]
    exact trimL_length_le w
  simp at h3

/-- Right trim eats a trailing whitespace character. -/
theorem trimR_snoc_ws {c : Char} (w : Str) (h : isWS c = true) :
    trimR (w ++ [c]) = trimR w := by
  unfold trimR
  rw [List.reverse_append]
  show ((c :: w.reverse).dropWhile isWS).reverse = _
  rw [List.dropWhile_cons, if_pos h]

/-- Right trim keeps a trailing non-whitespace character. -/
theorem trimR_snoc_not_ws {c : Char} (w : Str) (h : isWS c = false) :
    trimR (w ++ [c]) = w ++ [c] := by
  unfold trimR
  rw [List.reverse_append]
  show ((c :: w.reverse).dropWhile isWS).reverse = _
  rw [List.dropWhile_cons, if_neg (by simp [h])]
  simp

/-- Right trim fixes a string whose last character is not whitespace. -/
theorem trimR_of_getLast? {c : Char} {s : Str} (h : s.getLast? = some c)
    (hc : isWS c = false) : trimR s = s := by
  have hd : s.dropLast ++ [c] = s := List.dropLast_append_getLast? c h
  rw [← hd, trimR_snoc_not_ws _ hc]

/-- Trimming a well-formed record with its closing newline yields the record. -/
theorem jsTrim_append_nl {r : Str} (h : jsTrim r = r) (hne : r ≠ []) :
    jsTrim (r ++ [nlc]) = r := by
  obtain ⟨hL, hR⟩ := trim_fix_of_jsTrim h
  rcases r with _ | ⟨c, w⟩
  · exact absurd rfl hne
  · have hws : isWS c = false := head_not_ws_of_trimL hL
    unfold jsTrim
    rw [List.cons_append, trimL_cons_not_ws _ hws, ← List.cons_append,
      trimR_snoc_ws _ isWS_nlc, hR]

/-- Dangling marker prefixes trim to themselves. -/
theorem jsTrim_mk_take {t : Nat} (h1 : 1 ≤ t) (h5 : t ≤ 5) :
    jsTrim (mk.take t) = mk.take t := by
  interval_cases t <;> rfl

/-- A record followed by a newline and a dangling marker prefix trims to
itself. -/
theorem jsTrim_r_nl_mk {r : Str} {t : Nat} (h : jsTrim r = r) (hne : r ≠ [])
    (h1 : 1 ≤ t) (h5 : t ≤ 5) :
    jsTrim (r ++ nlc :: mk.take t) = r ++ nlc :: mk.take t := by
  obtain ⟨hL, _⟩ := trim_fix_of_jsTrim h
  rcases r with _ | ⟨c, w⟩
  · exact absurd rfl hne
  · have hws : isWS c = false := head_not_ws_of_trimL hL
    have hTL : trimL ((c :: w) ++ nlc :: mk.take t) = (c :: w) ++ nlc :: mk.take t := by
      rw [List.cons_append, trimL_cons_not_ws _ hws]
    have hlast : ∃ d, ((c :: w) ++ nlc :: mk.take t).getLast? = some d ∧ isWS d = false := by
      rw [List.getLast?_append]
      interval_cases t
      · exact ⟨'d', rfl, rfl⟩
      · exact ⟨'a', rfl, rfl⟩
      · exact ⟨'t', rfl, rfl⟩
      · exact ⟨'a', rfl, rfl⟩
      · exact ⟨Char.ofNat 58, rfl, rfl⟩
    obtain ⟨d, hd, hdw⟩ := hlast
    unfold jsTrim
    rw [hTL, trimR_of_getLast? hd hdw]

/-! Sentinel-absence lemmas: the done marker never appears in the segments a
well-formed stream produces. -/

/-- A nonempty newline-free infix of a junk-prefixed string is an infix of the
part after the junk. -/
theorem infix_of_junk_append {n : Str} (hne : n ≠ []) (hnl : nlc ∉ n)
    (q : Nat) (z : Str) (h : n <:+: junkL q ++ z) : n <:+: z := by
  induction q with
  | zero => simpa using h
  | succ m ih =>
    rw [junkL_succ, List.cons_append] at h
    rcases List.infix_cons_iff.mp h with hp | hi
    · rcases n with _ | ⟨a, n2⟩
      · exact absurd rfl hne
      · have := (List.cons_prefix_cons.mp hp).1
        exact absurd (this ▸ List.mem_cons_self a n2) hnl
    · exact ih hi

/-- A newline-free infix of a string with one interior newline lies on one
side of it. -/
theorem prefix_of_append_cons_of_not_mem {n a b : Str} (hnl : nlc ∉ n)
    (h : n <+: a ++ nlc :: b) : n <+: a := by
  by_cases hle : n.length ≤ a.length
  · have ha : a <+: a ++ nlc :: b := List.prefix_append a (nlc :: b)
    exact List.prefix_of_prefix_length_le h ha hle
  · have hlt : a.length < n.length := by omega
    have ha : a <+: a ++ nlc :: b := List.prefix_append a (nlc :: b)
    have h2 : a <+: n := List.prefix_of_prefix_length_le ha h (by omega)
    obtain ⟨n2, hn2⟩ := h2
    have hn2ne : n2 ≠ [] := by
      intro hz
      rw [hz, List.append_nil] at hn2
      rw [← hn2] at hlt
      simp at hlt
    rw [← hn2] at h
    have h3 : n2 <+: nlc :: b := (List.prefix_append_right_inj a).mp h
    rcases n2 with _ | ⟨x, n3⟩
    · exact absurd rfl hn2ne
    · have hx := (List.cons_prefix_cons.mp h3).1
      have : nlc ∈ n := by
        rw [← hn2, hx]
        exact List.mem_append_right a (List.mem_cons_self nlc n3)
      exact absurd this hnl

/-- A newline-free infix of `a ++ nlc :: b` is an infix of `a` or of `b`. -/
theorem infix_split_at_nl {n : Str} (hnl : nlc ∉ n) :
    ∀ (a b : Str), n <:+: a ++ nlc :: b → n <:+: a ∨ n <:+: b := by
  intro a
  induction a with
  | nil =>
    intro b h
    simp only [List.nil_append] at h
    rcases List.infix_cons_iff.mp h with hp | hi
    · rcases n with _ | ⟨x, n2⟩
      · exact Or.inl List.nil_infix
      · have hx := (List.cons_prefix_cons.mp hp).1
        exact absurd (hx ▸ List.mem_cons_self x n2) hnl
    · exact Or.inr hi
  | cons c a2 ih =>
    intro b h
    rw [List.cons_append] at h
    rcases List.infix_cons_iff.mp h with hp | hi
    · have h2 : n <+: c :: a2 := prefix_of_append_cons_of_not_mem hnl
        (by simpa using hp)
      exact Or.inl h2.isInfix
    · rcases ih b hi with h3 | h3
      · exact Or.inl (List.infix_cons h3)
      · exact Or.inr h3

/-- The sentinel is nonempty. -/
theorem doneMark_ne_nil : doneMark ≠ [] := by decide

/-- The sentinel contains no newline. -/
theorem nlc_not_mem_doneMark : nlc ∉ doneMark := by decide

/-- An overlong needle is not contained. -/
theorem containsSub_false_of_short {n h : Str} (hl : h.length < n.length) :
    containsSub n h = false := by
  cases hE : containsSub n h
  · rfl
  · have hi := (containsSub_iff n h).mp hE
    exact absurd hi.length_le (by omega)

/-- The sentinel does not occur in a junk-prefixed marker dangle. -/
theorem segDone_junk_mk (q t : Nat) (ht : t ≤ 5) :
    containsSub doneMark (junkL q ++ mk.take t) = false := by
  cases hE : containsSub doneMark (junkL q ++ mk.take t)
  · rfl
  · have hi := (containsSub_iff _ _).mp hE
    have h2 := infix_of_junk_append doneMark_ne_nil nlc_not_mem_doneMark q _ hi
    have h3 := h2.length_le
    have h4 : (mk.take t).length ≤ 5 := by
      rw [List.length_take]
      omega
    have h5 : doneMark.length = 6 := rfl
    omega

/-- The sentinel does not occur in pure junk. -/
theorem segDone_junk (q : Nat) : containsSub doneMark (junkL q) = false := by
  have h := segDone_junk_mk q 0 (by omega)
  simpa using h

/-- The sentinel does not occur in a junk-prefixed record fragment. -/
theorem segDone_junk_take {r : Str} (hr : containsSub doneMark r = false)
    (q s : Nat) : containsSub doneMark (junkL q ++ r.take s) = false := by
  cases hE : containsSub doneMark (junkL q ++ r.take s)
  · rfl
  · have hi := (containsSub_iff _ _).mp hE
    have h2 := infix_of_junk_append doneMark_ne_nil nlc_not_mem_doneMark q _ hi
    have h3 : doneMark <:+: r := h2.trans (List.take_prefix s r).isInfix
    rw [(containsSub_iff _ _).mpr h3] at hr
    cases hr

/-- The sentinel does not occur in a junk-prefixed record with its closing
newline and marker dangle. -/
theorem segDone_junk_r_nl_mk {r : Str} (hr : containsSub doneMark r = false)
    (q t : Nat) (ht : t ≤ 5) :
    containsSub doneMark (junkL q ++ (r ++ nlc :: mk.take t)) = false := by
  cases hE : containsSub doneMark (junkL q ++ (r ++ nlc :: mk.take t))
  · rfl
  · have hi := (containsSub_iff _ _).mp hE
    have h2 := infix_of_junk_append doneMark_ne_nil nlc_not_mem_doneMark q _ hi
    rcases infix_split_at_nl nlc_not_mem_doneMark r (mk.take t) h2 with h3 | h3
    · rw [(containsSub_iff _ _).mpr h3] at hr
      cases hr
    · have h4 := h3.length_le
      have h5 : (mk.take t).length ≤ 5 := by
        rw [List.length_take]
        omega
      have h6 : doneMark.length = 6 := rfl
      omega

/-- The sentinel does not occur in a junk-prefixed record with its closing
newline. -/
theorem segDone_junk_r_nl {r : Str} (hr : containsSub doneMark r = false)
    (q : Nat) : containsSub doneMark (junkL q ++ (r ++ [nlc])) = false := by
  have h := segDone_junk_r_nl_mk hr q 0 (by omega)
  simpa using h

/-! Marker-prefix lemmas for the split analysis. -/

/-- The marker is not a prefix of anything starting with junk. -/
theorem prefixOfB_mk_junk_append {w : Str} (q : Nat)
    (h : prefixOfB mk w = false) : prefixOfB mk (junkL q ++ w) = false := by
  cases q with
  | zero => simpa using h
  | succ m =>
    rw [junkL_succ, List.cons_append]
    exact prefixOfB_mk_nl _

/-- The marker is not a prefix of a prefix of a marker-free string. -/
theorem prefixOfB_mk_take {r : Str} (h : prefixOfB mk r = false) (s : Nat) :
    prefixOfB mk (r.take s) = false := by
  cases hE : prefixOfB mk (r.take s)
  · rfl
  · have hp := (prefixOfB_iff _ _).mp hE
    have h2 : mk <+: r := hp.trans (List.take_prefix s r)
    rw [(prefixOfB_iff _ _).mpr h2] at h
    cases h

/-- The marker is not a prefix of the empty string. -/
theorem prefixOfB_mk_nil : prefixOfB mk [] = false := rfl

/-- The marker is not a prefix of its own proper prefixes. -/
theorem prefixOfB_mk_mk_take {t : Nat} (ht : t ≤ 5) :
    prefixOfB mk (mk.take t) = false := by
  apply prefixOfB_false_of_lt
  rw [List.length_take]
  have : mk.length = 6 := rfl
  omega

/-! Newline-decomposition dischargers: which suffixes can follow a newline
inside the strings the stream produces. -/

/-- In a newline-free string no newline-decomposition exists. -/
theorem no_nl_decomp {z : Str} (hz : nlc ∉ z) {u v : Str}
    (h : z = u ++ nlc :: v) : False := by
  apply hz
  rw [h]
  exact List.mem_append_right u (List.mem_cons_self nlc v)

/-- Master discharger: a junk prefix only adds newline positions whose
suffixes again start with junk, so the marker follows no newline. -/
theorem junk_decomp_wrap2 (q : Nat) (z y2 : Str)
    (hz0 : prefixOfB mk (z ++ y2) = false)
    (hzin : ∀ u v, z = u ++ nlc :: v → prefixOfB mk (v ++ y2) = false) :
    ∀ u v, junkL q ++ z = u ++ nlc :: v → prefixOfB mk (v ++ y2) = false := by
  induction q with
  | zero =>
    intro u v h
    exact hzin u v (by simpa using h)
  | succ m ih =>
    intro u v h
    rw [junkL_succ, List.cons_append] at h
    rcases u with _ | ⟨c, u2⟩
    · have hv : v = junkL m ++ z := by
        have := h
        simp only [List.nil_append] at this
        exact (List.cons.injEq _ _ _ _).mp this |>.2.symm
      rw [hv, List.append_assoc]
      exact prefixOfB_mk_junk_append m hz0
    · rw [List.cons_append] at h
      have h2 := (List.cons.injEq _ _ _ _).mp h
      exact ih u2 v h2.2

/-- Master discharger, plain form (no continuation). -/
theorem junk_decomp_wrap (q : Nat) (z : Str)
    (hz0 : prefixOfB mk z = false)
    (hzin : ∀ u v, z = u ++ nlc :: v → prefixOfB mk v = false) :
    ∀ u v, junkL q ++ z = u ++ nlc :: v → prefixOfB mk v = false := by
  intro u v h
  have h2 := junk_decomp_wrap2 q z [] (by simpa using hz0)
    (by
      intro u2 v2 h3
      have := hzin u2 v2 h3
      simpa using this) u v h
  simpa using h2

/-- Inner discharger for a record followed by a newline and a short
newline-free tail. -/
theorem rnlw_decomp {r w : Str} (hr : nlc ∉ r) (hw : nlc ∉ w)
    (hw0 : prefixOfB mk w = false) :
    ∀ u v, r ++ nlc :: w = u ++ nlc :: v → prefixOfB mk v = false := by
  induction r generalizing w with
  | nil =>
    intro u v h
    simp only [List.nil_append] at h
    rcases u with _ | ⟨c, u2⟩
    · have hv : w = v := by
        simp only [List.nil_append] at h
        exact ((List.cons.injEq _ _ _ _).mp h).2
      rw [← hv]
      exact hw0
    · rw [List.cons_append] at h
      have h2 := (List.cons.injEq _ _ _ _).mp h
      exact absurd (no_nl_decomp hw h2.2) id
  | cons c r2 ih =>
    intro u v h
    rw [List.cons_append] at h
    rcases u with _ | ⟨c0, u2⟩
    · have hc := ((List.cons.injEq _ _ _ _).mp (by simpa using h)).1
      exact absurd (hc ▸ List.mem_cons_self c r2) hr
    · rw [List.cons_append] at h
      have h2 := (List.cons.injEq _ _ _ _).mp h
      exact ih (by
        intro hm
        exact hr (List.mem_cons_of_mem c hm)) hw hw0 u2 v h2.2

/-! High-level split lemmas. -/

/-- A string in which the marker follows no newline splits into itself. -/
theorem splitAfter_noSplit (s : Str)
    (h : ∀ u v, s = u ++ nlc :: v → prefixOfB mk v = false) :
    splitAfter s = (s, []) := by
  induction s with
  | nil => rfl
  | cons c rest ih =>
    have hneg : ¬ (c = nlc ∧ prefixOfB mk rest = true) := by
      rintro ⟨hc, hp⟩
      have := h [] rest (by rw [hc]; rfl)
      rw [this] at hp
      cases hp
    rw [splitAfter_cons_neg c rest hneg, ih]
    intro u v h2
    exact h (c :: u) v (by rw [h2]; rfl)

/-- The first segment closes at the first newline followed by the marker, and
splitting resumes after the marker. -/
theorem splitAfter_split (x y : Str)
    (hx : ∀ u v, x = u ++ nlc :: v →
      prefixOfB mk (v ++ nlc :: (mk ++ y)) = false) :
    splitAfter (x ++ nlc :: (mk ++ y)) =
      (x ++ [nlc], (splitAfter y).1 :: (splitAfter y).2) := by
  induction x with
  | nil =>
    simp only [List.nil_append]
    rw [splitAfter_cons_pos nlc (mk ++ y) ⟨rfl, prefixOfB_self_append mk y⟩]
    have hd : (mk ++ y).drop 6 = y := by
      have h6 : mk.length = 6 := rfl
      rw [← h6]
      exact List.drop_left mk y
    rw [hd]
  | cons c x2 ih =>
    rw [List.cons_append]
    have hneg : ¬ (c = nlc ∧ prefixOfB mk (x2 ++ nlc :: (mk ++ y)) = true) := by
      rintro ⟨hc, hp⟩
      have := hx [] x2 (by rw [hc]; rfl)
      rw [this] at hp
      cases hp
    rw [splitAfter_cons_neg c _ hneg]
    rw [ih (by
      intro u v h2
      exact hx (c :: u) v (by rw [h2]; rfl))]
    rfl

/-- Unfolding of the multi-line split when the chunk does not start with the
marker. -/
theorem splitDM_neg {s : Str} (h : prefixOfB mk s = false) :
    splitDM s = (splitAfter s).1 :: (splitAfter s).2 := by
  unfold splitDM
  rw [h]
  rcases hS : splitAfter s with ⟨a, b⟩
  simp

/-- Unfolding of the multi-line split when the chunk starts with the
marker. -/
theorem splitDM_pos {s : Str} (h : prefixOfB mk s = true) :
    splitDM s = [] :: (splitAfter (s.drop 6)).1 :: (splitAfter (s.drop 6)).2 := by
  unfold splitDM
  rw [h]
  rcases hS : splitAfter (s.drop 6) with ⟨a, b⟩
  simp

/-! State plumbing: how the accumulation step acts on each field. -/

/-- The delta accumulation never touches the partial-chunk buffer. -/
theorem accumulateDelta_partialChunk (st : AccState) (j : Json) :
    (accumulateDelta st j).partialChunk = st.partialChunk := by
  unfold accumulateDelta
  dsimp only
  repeat' split
  all_goals rfl

/-- The delta accumulation never touches the ghost trace. -/
theorem accumulateDelta_trace (st : AccState) (j : Json) :
    (accumulateDelta st j).trace = st.trace := by
  unfold accumulateDelta
  dsimp only
  repeat' split
  all_goals rfl

/-- The delta accumulation never touches the raw log. -/
theorem accumulateDelta_raw (st : AccState) (j : Json) :
    (accumulateDelta st j).rawStreamedBody = st.rawStreamedBody := by
  unfold accumulateDelta
  dsimp only
  repeat' split
  all_goals rfl

/-- The delta accumulation never touches the chunk counter. -/
theorem accumulateDelta_chunkIndex (st : AccState) (j : Json) :
    (accumulateDelta st j).chunkIndex = st.chunkIndex := by
  unfold accumulateDelta
  dsimp only
  repeat' split
  all_goals rfl

/-- The delta accumulation appends exactly the content fragment. -/
theorem accumulateDelta_paragraph (st : AccState) (j : Json) :
    (accumulateDelta st j).paragraph = st.paragraph ++ deltaContent j := by
  unfold accumulateDelta deltaContent
  dsimp only
  repeat' split
  all_goals simp_all

/-- The delta accumulation appends exactly the name fragment. -/
theorem accumulateDelta_name (st : AccState) (j : Json) :
    (accumulateDelta st j).functionCallName = st.functionCallName ++ deltaName j := by
  unfold accumulateDelta deltaName
  dsimp only
  repeat' split
  all_goals simp_all

/-- The delta accumulation appends exactly the arguments fragment. -/
theorem accumulateDelta_args (st : AccState) (j : Json) :
    (accumulateDelta st j).functionCallArgs = st.functionCallArgs ++ deltaArgs j := by
  unfold accumulateDelta deltaArgs
  dsimp only
  repeat' split
  all_goals simp_all

/-- The record step preserves the partial-chunk buffer. -/
theorem recordStep_partialChunk (parse : Str → Option Json) (st : AccState)
    (r : Str) : (recordStep parse st r).partialChunk = st.partialChunk := by
  unfold recordStep
  rcases hp : parse r with _ | j
  · rfl
  · dsimp only
    split
    · rw [accumulateDelta_partialChunk]
    · rfl

/-- The record step preserves the raw log. -/
theorem recordStep_raw (parse : Str → Option Json) (st : AccState)
    (r : Str) : (recordStep parse st r).rawStreamedBody = st.rawStreamedBody := by
  unfold recordStep
  rcases hp : parse r with _ | j
  · rfl
  · dsimp only
    split
    · rw [accumulateDelta_raw]
    · rfl

/-- The record step preserves the chunk counter. -/
theorem recordStep_chunkIndex (parse : Str → Option Json) (st : AccState)
    (r : Str) : (recordStep parse st r).chunkIndex = st.chunkIndex := by
  unfold recordStep
  rcases hp : parse r with _ | j
  · rfl
  · dsimp only
    split
    · rw [accumulateDelta_chunkIndex]
    · rfl

/-- The paragraph increment of one record step. -/
theorem recordStep_paragraph (parse : Str → Option Json) (st : AccState)
    (r : Str) : (recordStep parse st r).paragraph =
      st.paragraph ++ (match parse r with
        | some j => if hasNonemptyChoices j then deltaContent j else []
        | none => []) := by
  unfold recordStep
  rcases hp : parse r with _ | j
  · simp
  · dsimp only
    split
    · rw [accumulateDelta_paragraph]
    · simp

/-- The name increment of one record step. -/
theorem recordStep_name (parse : Str → Option Json) (st : AccState)
    (r : Str) : (recordStep parse st r).functionCallName =
      st.functionCallName ++ (match parse r with
        | some j => if hasNonemptyChoices j then deltaName j else []
        | none => []) := by
  unfold recordStep
  rcases hp : parse r with _ | j
  · simp
  · dsimp only
    split
    · rw [accumulateDelta_name]
    · simp

/-- The arguments increment of one record step. -/
theorem recordStep_args (parse : Str → Option Json) (st : AccState)
    (r : Str) : (recordStep parse st r).functionCallArgs =
      st.functionCallArgs ++ (match parse r with
        | some j => if hasNonemptyChoices j then deltaArgs j else []
        | none => []) := by
  unfold recordStep
  rcases hp : parse r with _ | j
  · simp
  · dsimp only
    split
    · rw [accumulateDelta_args]
    · simp

/-- The trace increment of one record step. -/
theorem recordStep_trace (parse : Str → Option Json) (st : AccState)
    (r : Str) : (recordStep parse st r).trace =
      st.trace ++ (match parse r with
        | some j => [j]
        | none => []) := by
  unfold recordStep
  rcases hp : parse r with _ | j
  · simp
  · dsimp only
    split
    · rw [accumulateDelta_trace]
    · rfl

/-- The record fold preserves the partial-chunk buffer. -/
theorem foldl_recordStep_partialChunk (parse : Str → Option Json) :
    ∀ (l : List Str) (st : AccState),
      (l.foldl (recordStep parse) st).partialChunk = st.partialChunk := by
  intro l
  induction l with
  | nil => intro st; rfl
  | cons r l2 ih =>
    intro st
    rw [List.foldl_cons, ih, recordStep_partialChunk]

/-- The record fold preserves the raw log. -/
theorem foldl_recordStep_raw (parse : Str → Option Json) :
    ∀ (l : List Str) (st : AccState),
      (l.foldl (recordStep parse) st).rawStreamedBody = st.rawStreamedBody := by
  intro l
  induction l with
  | nil => intro st; rfl
  | cons r l2 ih =>
    intro st
    rw [List.foldl_cons, ih, recordStep_raw]

/-- The record fold preserves the chunk counter. -/
theorem foldl_recordStep_chunkIndex (parse : Str → Option Json) :
    ∀ (l : List Str) (st : AccState),
      (l.foldl (recordStep parse) st).chunkIndex = st.chunkIndex := by
  intro l
  induction l with
  | nil => intro st; rfl
  | cons r l2 ih =>
    intro st
    rw [List.foldl_cons, ih, recordStep_chunkIndex]

/-- Congruence: the semantic fields of the record fold depend only on the
semantic fields of the start state. -/
theorem foldl_recordStep_congr (parse : Str → Option Json) :
    ∀ (l : List Str) (st st2 : AccState),
      st.paragraph = st2.paragraph →
      st.functionCallName = st2.functionCallName →
      st.functionCallArgs = st2.functionCallArgs →
      st.trace = st2.trace →
      (l.foldl (recordStep parse) st).paragraph =
        (l.foldl (recordStep parse) st2).paragraph ∧
      (l.foldl (recordStep parse) st).functionCallName =
        (l.foldl (recordStep parse) st2).functionCallName ∧
      (l.foldl (recordStep parse) st).functionCallArgs =
        (l.foldl (recordStep parse) st2).functionCallArgs ∧
      (l.foldl (recordStep parse) st).trace =
        (l.foldl (recordStep parse) st2).trace := by
  intro l
  induction l with
  | nil => intro st st2 h1 h2 h3 h4; exact ⟨h1, h2, h3, h4⟩
  | cons r l2 ih =>
    intro st st2 h1 h2 h3 h4
    rw [List.foldl_cons, List.foldl_cons]
    exact ih _ _
      (by rw [recordStep_paragraph, recordStep_paragraph, h1])
      (by rw [recordStep_name, recordStep_name, h2])
      (by rw [recordStep_args, recordStep_args, h3])
      (by rw [recordStep_trace, recordStep_trace, h4])

/-- The trace of the record fold lists every parsed record in order. -/
theorem foldl_recordStep_trace (parse : Str → Option Json) :
    ∀ (l : List Str) (st : AccState),
      (l.foldl (recordStep parse) st).trace = st.trace ++ l.filterMap parse := by
  intro l
  induction l with
  | nil => intro st; simp
  | cons r l2 ih =>
    intro st
    rw [List.foldl_cons, ih, recordStep_trace, List.filterMap_cons]
    rcases hp : parse r with _ | j
    · simp
    · simp

/-- Overriding with the state's own partial chunk is the identity. -/
theorem withPartial_self (st : AccState) : withPartial st st.partialChunk = st := rfl

/-- Overriding twice keeps the last value. -/
theorem withPartial_withPartial (st : AccState) (p p2 : Str) :
    withPartial (withPartial st p) p2 = withPartial st p2 := rfl

/-- Two states with equal fields agree after a partial-chunk override. -/
theorem withPartial_ext {X Y : AccState} (p : Str)
    (h1 : X.rawStreamedBody = Y.rawStreamedBody)
    (h2 : X.paragraph = Y.paragraph)
    (h3 : X.functionCallName = Y.functionCallName)
    (h4 : X.functionCallArgs = Y.functionCallArgs)
    (h5 : X.chunkIndex = Y.chunkIndex)
    (h6 : X.trace = Y.trace) :
    withPartial X p = withPartial Y p := by
  cases X
  cases Y
  simp_all [withPartial]

/-! Segment-processing helper lemmas. -/

/-- Empty segments are skipped. -/
theorem processSegment_empty (parse : Str → Option Json)
    (allowed : Option (List Str)) (st : AccState) :
    processSegment parse allowed st [] = .cont st := rfl

/-- A nonempty sentinel-free segment that fails to parse becomes the new
partial chunk. -/
theorem processSegment_fail (parse : Str → Option Json)
    (allowed : Option (List Str)) (st : AccState) {seg : Str}
    (hne : seg ≠ []) (hdone : containsSub doneMark seg = false)
    (hparse : parse (jsTrim seg) = none) :
    processSegment parse allowed st seg = .cont { st with partialChunk := seg } := by
  unfold processSegment
  rw [if_neg hne, if_neg (by simp [hdone]), hparse]

/-- A nonempty sentinel-free segment that trims to a benign record is
processed by the record step. -/
theorem processSegment_parses (parse : Str → Option Json)
    (allowed : Option (List Str)) (st : AccState) {seg r : Str} {j : Json}
    (hne : seg ≠ []) (hdone : containsSub doneMark seg = false)
    (htrim : jsTrim seg = r) (hj : parse r = some j)
    (hben : hasNonemptyChoices j = true ∨
      truthyOpt (jsonGet j "error".toList) = false) :
    processSegment parse allowed st seg = .cont (recordStep parse st r) := by
  unfold processSegment recordStep
  rw [if_neg hne, if_neg (by simp [hdone]), htrim, hj]
  dsimp only
  unfold handleParsedRecord
  cases hch : hasNonemptyChoices j with
  | true => simp [hch]
  | false =>
    have herr : truthyOpt (jsonGet j "error".toList) = false := by
      rcases hben with hb | hb
      · rw [hch] at hb
        cases hb
      · exact hb
    simp only [hch, Bool.false_eq_true, if_false]
    rw [if_neg (by
      intro hx
      rw [herr] at hx
      cases hx)]

/-- Folding over no segments. -/
theorem procSegs_nil (parse : Str → Option Json) (allowed : Option (List Str))
    (st : AccState) : procSegs parse allowed st [] = .cont st := rfl

/-- Folding over one more segment that continues. -/
theorem procSegs_cons_cont (parse : Str → Option Json)
    (allowed : Option (List Str)) {st st2 : AccState} {seg : Str} (rest : List Str)
    (h : processSegment parse allowed st seg = .cont st2) :
    procSegs parse allowed st (seg :: rest) = procSegs parse allowed st2 rest := by
  show (match processSegment parse allowed st seg with
    | SegStep.cont st3 => procSegs parse allowed st3 rest
    | SegStep.halt r => SegStep.halt r) = procSegs parse allowed st2 rest
  rw [h]

/-! Stream shape lemmas. -/

/-- The empty record sequence produces the empty stream. -/
theorem streamOf_nil : streamOf [] = [] := rfl

/-- The stream of a record sequence starts with the marker. -/
theorem streamOf_cons (r : Str) (rs : List Str) :
    streamOf (r :: rs) = mk ++ (r ++ nlc :: streamOf rs) := by
  unfold streamOf
  rw [List.map_cons, List.flatten_cons]
  unfold unitOf
  simp [List.append_assoc]

/-- Splitting an append equation at the shorter left part. -/
theorem append_eq_of_le {a b c d : Str} (h : a ++ b = c ++ d)
    (hl : a.length ≤ c.length) :
    a = c.take a.length ∧ b = c.drop a.length ++ d := by
  constructor
  · have h1 : (a ++ b).take a.length = a := List.take_left a b
    rw [h, List.take_append_eq_append_take] at h1
    have h2 : a.length - c.length = 0 := by omega
    rw [h2] at h1
    simpa using h1.symm
  · have h1 : (a ++ b).drop a.length = b := List.drop_left a b
    rw [h, List.drop_append_eq_append_drop] at h1
    have h2 : a.length - c.length = 0 := by omega
    rw [h2] at h1
    simpa using h1.symm

/-! Chunk-processing lemmas: what one buffer does to a well-formed remainder
of the stream. -/

/-- The marker contains no newline. -/
theorem nlc_not_mem_mk : nlc ∉ mk := by decide

/-- Length of a junk run. -/
theorem junkL_length (q : Nat) : (junkL q).length = q := List.length_replicate q nlc

/-- Splitting the empty chunk produces one empty segment. -/
theorem splitDM_nil : splitDM [] = [[]] := rfl

/-- Processing a chunk that ends at or inside the current record: the chunk
is a single segment that either is empty, or fails to parse and becomes the
partial chunk, or is the whole record and gets processed. -/
theorem procChunkR_low (parse : Str → Option Json) (allowed : Option (List Str))
    (todo2 : List Str) (r : Str) (hr : WFRecord parse r)
    (q : Nat) (V1 rem2 : Str)
    (hsplit : V1 ++ rem2 = r ++ nlc :: streamOf todo2)
    (hle : V1.length ≤ r.length)
    (st : AccState) (q0 : Nat) (hq0 : st.partialChunk = junkL q0) :
    ChunkOut parse st (r :: todo2) rem2
      (procSegs parse allowed st (splitDM (junkL q ++ V1))) := by
  obtain ⟨hrne, hrnl, hrtrim, hrpm, hmpr, hrdone, ⟨j, hj, hben⟩, hprefixes, hdangles⟩ := hr
  have hlen2 : V1.length ≤ (r ++ nlc :: streamOf todo2).length := by
    rw [← hsplit, List.length_append]
    omega
  obtain ⟨hV1t, hremt⟩ := append_eq_of_le hsplit (by omega)
  obtain ⟨s, hsle, hV1, hrem⟩ :
      ∃ s, s ≤ r.length ∧ V1 = r.take s ∧
        rem2 = r.drop s ++ (nlc :: streamOf todo2) :=
    ⟨V1.length, hle, hV1t, hremt⟩
  subst hV1
  subst hrem
  rcases Nat.lt_or_ge s r.length with hslt | hsge
  · -- the chunk ends strictly inside the record
    by_cases hz : q = 0 ∧ s = 0
    · obtain ⟨hq, hs0⟩ := hz
      subst hq
      subst hs0
      have hemp : junkL 0 ++ r.take 0 = [] := rfl
      rw [hemp, splitDM_nil,
        procSegs_cons_cont parse allowed [] (processSegment_empty parse allowed st),
        procSegs_nil]
      refine ⟨0, junkL q0, ?_, ?_⟩
      · have : withPartial st (junkL q0) = st := by
          rw [← hq0, withPartial_self]
        rw [List.take_zero, List.foldl_nil, this]
      · refine Or.inr (Or.inr (Or.inl ⟨r, todo2, 0, q0, rfl, ?_, by simp, by simp⟩))
        rw [List.length_pos]
        exact hrne
    · -- nonempty failing fragment
      have hVne : junkL q ++ r.take s ≠ [] := by
        have hlen : (junkL q ++ r.take s).length = q + s := by
          rw [List.length_append, junkL_length, List.length_take]
          omega
        intro hx
        rw [hx] at hlen
        simp at hlen
        exact hz ⟨by omega, by omega⟩
      have hsingle : splitAfter (junkL q ++ r.take s) = (junkL q ++ r.take s, []) := by
        apply splitAfter_noSplit
        apply junk_decomp_wrap q (r.take s) (prefixOfB_mk_take hmpr s)
        intro u v h
        exact (no_nl_decomp (fun hm => hrnl (List.mem_of_mem_take hm)) h).elim
      have hPF : prefixOfB mk (junkL q ++ r.take s) = false :=
        prefixOfB_mk_junk_append q (prefixOfB_mk_take hmpr s)
      rw [splitDM_neg hPF, hsingle,
        procSegs_cons_cont parse allowed []
          (processSegment_fail parse allowed st hVne
            (segDone_junk_take hrdone q s)
            (by rw [jsTrim_junk_append]; exact hprefixes s hslt)),
        procSegs_nil]
      refine ⟨0, junkL q ++ r.take s, rfl, ?_⟩
      exact Or.inr (Or.inr (Or.inl ⟨r, todo2, s, q, rfl, hslt, rfl, rfl⟩))
  · -- the chunk ends exactly at the record boundary
    have hseq : s = r.length := by omega
    subst hseq
    rw [List.take_length] at *
    have hVne : junkL q ++ r ≠ [] := by
      intro hx
      exact hrne (List.append_eq_nil.mp hx).2
    have hsingle : splitAfter (junkL q ++ r) = (junkL q ++ r, []) := by
      apply splitAfter_noSplit
      apply junk_decomp_wrap q r hmpr
      intro u v h
      exact (no_nl_decomp hrnl h).elim
    have hPF : prefixOfB mk (junkL q ++ r) = false :=
      prefixOfB_mk_junk_append q hmpr
    have hdone2 : containsSub doneMark (junkL q ++ r) = false := by
      have h2 := segDone_junk_take hrdone q r.length
      rw [List.take_length] at h2
      exact h2
    rw [splitDM_neg hPF, hsingle,
      procSegs_cons_cont parse allowed []
        (processSegment_parses parse allowed st hVne hdone2
          (by rw [jsTrim_junk_append]; exact hrtrim) hj hben),
      procSegs_nil]
    refine ⟨1, junkL q0, ?_, ?_⟩
    · have hpc : (recordStep parse st r).partialChunk = junkL q0 := by
        rw [recordStep_partialChunk, hq0]
      have : withPartial (recordStep parse st r) (junkL q0) = recordStep parse st r := by
        rw [← hpc, withPartial_self]
      rw [List.take_succ_cons, List.take_zero, List.foldl_cons, List.foldl_nil, this]
    · refine Or.inr (Or.inr (Or.inr (Or.inr ⟨?_, q0, rfl⟩)))
      rw [List.drop_length]
      rfl

/-- Processing a chunk that ends exactly after the record's newline: the
record is processed and the boundary is clean. -/
theorem procChunkR_nlend (parse : Str → Option Json) (allowed : Option (List Str))
    (todo2 : List Str) (r : Str) (hr : WFRecord parse r)
    (q : Nat) (rem2 : Str) (hrem : rem2 = streamOf todo2)
    (st : AccState) (q0 : Nat) (hq0 : st.partialChunk = junkL q0) :
    ChunkOut parse st (r :: todo2) rem2
      (procSegs parse allowed st (splitDM (junkL q ++ (r ++ [nlc])))) := by
  obtain ⟨hrne, hrnl, hrtrim, hrpm, hmpr, hrdone, ⟨j, hj, hben⟩, hprefixes, hdangles⟩ := hr
  have hz0 : prefixOfB mk (r ++ [nlc]) = false :=
    prefixOfB_mk_append_false r [nlc] hmpr hrpm
  have hsingle : splitAfter (junkL q ++ (r ++ [nlc])) = (junkL q ++ (r ++ [nlc]), []) := by
    apply splitAfter_noSplit
    apply junk_decomp_wrap q (r ++ [nlc]) hz0
    exact rnlw_decomp hrnl (by simp) prefixOfB_mk_nil
  have hPF : prefixOfB mk (junkL q ++ (r ++ [nlc])) = false :=
    prefixOfB_mk_junk_append q hz0
  have hVne : junkL q ++ (r ++ [nlc]) ≠ [] := by
    intro hx
    rw [List.append_eq_nil, List.append_eq_nil] at hx
    cases hx.2.2
  rw [splitDM_neg hPF, hsingle,
    procSegs_cons_cont parse allowed []
      (processSegment_parses parse allowed st hVne
        (segDone_junk_r_nl hrdone q)
        (by rw [jsTrim_junk_append]; exact jsTrim_append_nl hrtrim hrne) hj hben),
    procSegs_nil]
  refine ⟨1, junkL q0, ?_, ?_⟩
  · have hpc : (recordStep parse st r).partialChunk = junkL q0 := by
      rw [recordStep_partialChunk, hq0]
    have hwp : withPartial (recordStep parse st r) (junkL q0) = recordStep parse st r := by
      rw [← hpc, withPartial_self]
    rw [List.take_succ_cons, List.take_zero, List.foldl_cons, List.foldl_nil, hwp]
  · show ShapeP todo2 rem2 (junkL q0)
    rcases todo2 with _ | ⟨r2, rest3⟩
    · exact Or.inl ⟨rfl, by rw [hrem]; rfl, q0, rfl⟩
    · refine Or.inr (Or.inl ⟨r2, rest3, 0, q0, rfl, by omega, by simp, ?_⟩)
      rw [hrem, streamOf_cons]
      simp

/-- Processing a chunk that ends inside the next record's marker: the whole
tail fails to parse and dangles as the partial chunk. -/
theorem procChunkR_dangle (parse : Str → Option Json) (allowed : Option (List Str))
    (hP : WFParse parse) (r r2 : Str) (rest3 : List Str) (hr : WFRecord parse r)
    (q t : Nat) (ht1 : 1 ≤ t) (ht5 : t ≤ 5) (rem2 : Str)
    (hrem : rem2 = mk.drop t ++ (r2 ++ nlc :: streamOf rest3))
    (st : AccState) (q0 : Nat) (hq0 : st.partialChunk = junkL q0) :
    ChunkOut parse st (r :: r2 :: rest3) rem2
      (procSegs parse allowed st (splitDM (junkL q ++ (r ++ nlc :: mk.take t)))) := by
  obtain ⟨hrne, hrnl, hrtrim, hrpm, hmpr, hrdone, ⟨j, hj, hben⟩, hprefixes, hdangles⟩ := hr
  have hz0 : prefixOfB mk (r ++ nlc :: mk.take t) = false :=
    prefixOfB_mk_append_false r (nlc :: mk.take t) hmpr hrpm
  have hsingle : splitAfter (junkL q ++ (r ++ nlc :: mk.take t)) =
      (junkL q ++ (r ++ nlc :: mk.take t), []) := by
    apply splitAfter_noSplit
    apply junk_decomp_wrap q (r ++ nlc :: mk.take t) hz0
    exact rnlw_decomp hrnl
      (fun hm => nlc_not_mem_mk (List.mem_of_mem_take hm))
      (prefixOfB_mk_mk_take ht5)
  have hPF : prefixOfB mk (junkL q ++ (r ++ nlc :: mk.take t)) = false :=
    prefixOfB_mk_junk_append q hz0
  have hVne : junkL q ++ (r ++ nlc :: mk.take t) ≠ [] := by
    intro hx
    rw [List.append_eq_nil, List.append_eq_nil] at hx
    cases hx.2.2
  rw [splitDM_neg hPF, hsingle,
    procSegs_cons_cont parse allowed []
      (processSegment_fail parse allowed st hVne
        (segDone_junk_r_nl_mk hrdone q t ht5)
        (by
          rw [jsTrim_junk_append, jsTrim_r_nl_mk hrtrim hrne ht1 ht5]
          exact hdangles t ht1 ht5)),
    procSegs_nil]
  refine ⟨0, junkL q ++ (r ++ nlc :: mk.take t), rfl, ?_⟩
  refine Or.inr (Or.inr (Or.inr (Or.inl
    ⟨r, r2, rest3, t, q, rfl, ht1, ht5, rfl, ?_⟩)))
  exact hrem

/-- Dissection of a chunk extending past the record boundary. -/
theorem dissect_high {V1 rem2 r S : Str}
    (hsplit : V1 ++ rem2 = r ++ nlc :: S) (hgt : r.length < V1.length) :
    ∃ W3, V1 = r ++ nlc :: W3 ∧ W3 ++ rem2 = S := by
  obtain ⟨hrt, hS⟩ := append_eq_of_le hsplit.symm (by omega)
  rcases hW2 : V1.drop r.length with _ | ⟨c, W3⟩
  · have hlen := List.length_drop r.length V1
    rw [hW2] at hlen
    simp at hlen
    omega
  · rw [hW2] at hS
    rw [List.cons_append] at hS
    have hc := (List.cons.injEq _ _ _ _).mp hS
    refine ⟨W3, ?_, hc.2.symm⟩
    calc V1 = V1.take r.length ++ V1.drop r.length := (List.take_append_drop _ _).symm
    _ = r ++ nlc :: W3 := by rw [← hrt, hW2, ← hc.1]

/-- Processing one chunk of a well-formed stream, positioned at the start of
a record (modulo stale junk): some prefix of the pending records is fully
processed and the tail dangles in one of the boundary shapes. -/
theorem procChunkR (parse : Str → Option Json) (allowed : Option (List Str))
    (hP : WFParse parse) :
    ∀ (todo2 : List Str), (∀ r2 ∈ todo2, WFRecord parse r2) →
    ∀ (r : Str), WFRecord parse r →
    ∀ (q : Nat) (V1 rem2 : Str), V1 ++ rem2 = r ++ nlc :: streamOf todo2 →
    ∀ (st : AccState) (q0 : Nat), st.partialChunk = junkL q0 →
    ChunkOut parse st (r :: todo2) rem2
      (procSegs parse allowed st (splitDM (junkL q ++ V1))) := by
  intro todo2
  induction todo2 with
  | nil =>
    intro hrest r hr q V1 rem2 hsplit st q0 hq0
    rcases Nat.lt_or_ge r.length V1.length with hgt | hle
    · obtain ⟨W3, hV1, hW3⟩ := dissect_high hsplit hgt
      subst hV1
      rw [streamOf_nil] at hW3
      obtain ⟨hW3n, hremn⟩ := List.append_eq_nil.mp hW3
      subst hW3n
      subst hremn
      exact procChunkR_nlend parse allowed [] r hr q [] rfl st q0 hq0
    · exact procChunkR_low parse allowed [] r hr q V1 rem2 hsplit hle st q0 hq0
  | cons r2 rest3 ih =>
    intro hrest r hr q V1 rem2 hsplit st q0 hq0
    rcases Nat.lt_or_ge r.length V1.length with hgt | hle
    · obtain ⟨W3, hV1, hW3⟩ := dissect_high hsplit hgt
      subst hV1
      rw [streamOf_cons] at hW3
      rcases Nat.lt_or_ge 5 W3.length with hge6 | hle5
      · -- the chunk covers the whole next marker: process and recurse
        obtain ⟨hrne, hrnl, hrtrim, hrpm, hmpr, hrdone, ⟨j, hj, hben⟩,
          hprefixes, hdangles⟩ := hr
        have hmklen : mk.length = 6 := rfl
        obtain ⟨hmkt, hYt⟩ := append_eq_of_le hW3.symm (by omega)
        rw [hmklen] at hmkt hYt
        obtain ⟨V4, hW3e, hV4⟩ :
            ∃ V4, W3 = mk ++ V4 ∧ V4 ++ rem2 = r2 ++ nlc :: streamOf rest3 :=
          ⟨W3.drop 6, by
            calc W3 = W3.take 6 ++ W3.drop 6 := (List.take_append_drop _ _).symm
            _ = mk ++ W3.drop 6 := by rw [← hmkt], hYt.symm⟩
        subst hW3e
        have hz0 : prefixOfB mk (r ++ nlc :: (mk ++ V4)) = false :=
          prefixOfB_mk_append_false r (nlc :: (mk ++ V4)) hmpr hrpm
        have hPF : prefixOfB mk (junkL q ++ (r ++ nlc :: (mk ++ V4))) = false :=
          prefixOfB_mk_junk_append q hz0
        have hx : ∀ u v, junkL q ++ r = u ++ nlc :: v →
            prefixOfB mk (v ++ nlc :: (mk ++ V4)) = false := by
          apply junk_decomp_wrap2 q r (nlc :: (mk ++ V4)) hz0
          intro u v h
          exact (no_nl_decomp hrnl h).elim
        have hr2 := hrest r2 (List.mem_cons_self r2 rest3)
        have hV4PF : prefixOfB mk V4 = false := by
          cases hE : prefixOfB mk V4
          · rfl
          · exfalso
            have hp : mk <+: V4 := (prefixOfB_iff _ _).mp hE
            have hp2 : mk <+: r2 ++ nlc :: streamOf rest3 := by
              rw [← hV4]
              exact hp.trans (List.prefix_append V4 rem2)
            have := prefixOfB_mk_append_false r2 (nlc :: streamOf rest3)
              hr2.2.2.2.2.1 hr2.2.2.2.1
            rw [(prefixOfB_iff _ _).mpr hp2] at this
            cases this
        have hVne : (junkL q ++ r) ++ [nlc] ≠ [] := by
          intro hxe
          rw [List.append_eq_nil] at hxe
          cases hxe.2
        have hfirst : processSegment parse allowed st ((junkL q ++ r) ++ [nlc]) =
            .cont (recordStep parse st r) := by
          apply processSegment_parses parse allowed st hVne
          · rw [List.append_assoc]
            exact segDone_junk_r_nl hrdone q
          · rw [List.append_assoc, jsTrim_junk_append]
            exact jsTrim_append_nl hrtrim hrne
          · exact hj
          · exact hben
        have hrun : procSegs parse allowed st
            (splitDM (junkL q ++ (r ++ nlc :: (mk ++ V4)))) =
            procSegs parse allowed (recordStep parse st r) (splitDM V4) := by
          rw [splitDM_neg hPF,
            show junkL q ++ (r ++ nlc :: (mk ++ V4)) =
              (junkL q ++ r) ++ (nlc :: (mk ++ V4)) from by rw [List.append_assoc],
            splitAfter_split (junkL q ++ r) V4 hx]
          dsimp only
          rw [procSegs_cons_cont parse allowed _ hfirst, ← splitDM_neg hV4PF]
        have hIH := ih (fun r3 hm => hrest r3 (List.mem_cons_of_mem r2 hm))
          r2 hr2 0 V4 rem2 hV4 (recordStep parse st r) q0
          (by rw [recordStep_partialChunk, hq0])
        rw [junkL_zero, List.nil_append] at hIH
        obtain ⟨k2, P, hout, hshape⟩ := hIH
        refine ⟨k2 + 1, P, ?_, ?_⟩
        · rw [hrun, hout, List.take_succ_cons, List.foldl_cons]
        · rw [List.drop_succ_cons]
          exact hshape
      · rcases Nat.eq_zero_or_pos W3.length with h0 | hpos
        · have hW3nil : W3 = [] := List.length_eq_zero.mp h0
          subst hW3nil
          simp only [List.nil_append] at hW3
          apply procChunkR_nlend parse allowed (r2 :: rest3) r hr q rem2
            (by rw [streamOf_cons]; exact hW3) st q0 hq0
        · obtain ⟨hmkt, hremf⟩ := append_eq_of_le hW3 (by
            have : mk.length = 6 := rfl
            omega)
          obtain ⟨t, ht1, ht5, hW3f, hremg⟩ :
              ∃ t, 1 ≤ t ∧ t ≤ 5 ∧ W3 = mk.take t ∧
                rem2 = mk.drop t ++ (r2 ++ nlc :: streamOf rest3) :=
            ⟨W3.length, hpos, hle5, hmkt, hremf⟩
          subst hW3f
          exact procChunkR_dangle parse allowed hP r r2 rest3 hr q t ht1 ht5
            rem2 hremg st q0 hq0
    · exact procChunkR_low parse allowed (r2 :: rest3) r hr q V1 rem2 hsplit hle st q0 hq0

/-- Processing one chunk of a well-formed stream positioned before the next
record's marker (modulo stale junk). -/
theorem procChunkN (parse : Str → Option Json) (allowed : Option (List Str))
    (hP : WFParse parse) (r : Str) (todo2 : List Str)
    (hrest : ∀ r2 ∈ todo2, WFRecord parse r2) (hr : WFRecord parse r)
    (q : Nat) (V rem2 : Str)
    (hsplit : V ++ rem2 = junkL q ++ streamOf (r :: todo2))
    (hq : q ≤ V.length)
    (st : AccState) (q0 : Nat) (hq0 : st.partialChunk = junkL q0) :
    ChunkOut parse st (r :: todo2) rem2 (procSegs parse allowed st (splitDM V)) := by
  obtain ⟨hjk, hrest2⟩ := append_eq_of_le hsplit.symm (by rw [junkL_length]; exact hq)
  obtain ⟨V1, hVe, hV1⟩ : ∃ V1, V = junkL q ++ V1 ∧ V1 ++ rem2 = streamOf (r :: todo2) :=
    ⟨V.drop (junkL q).length, by
      calc V = V.take (junkL q).length ++ V.drop (junkL q).length :=
        (List.take_append_drop _ _).symm
      _ = junkL q ++ V.drop (junkL q).length := by rw [← hjk],
     hrest2.symm⟩
  subst hVe
  rw [streamOf_cons] at hV1
  rcases Nat.lt_or_ge V1.length 6 with hlt6 | hge6
  · -- the chunk ends inside the next marker
    obtain ⟨hV1t, hremt⟩ := append_eq_of_le hV1 (by
      have hm : mk.length = 6 := rfl
      omega)
    obtain ⟨t, ht5, hV1f, hremf⟩ :
        ∃ t, t ≤ 5 ∧ V1 = mk.take t ∧
          rem2 = mk.drop t ++ (r ++ nlc :: streamOf todo2) :=
      ⟨V1.length, by omega, hV1t, hremt⟩
    subst hV1f
    subst hremf
    rcases Nat.eq_zero_or_pos (q + t) with hqt0 | hqtpos
    · have hq00 : q = 0 := by omega
      have ht00 : t = 0 := by omega
      subst hq00
      subst ht00
      have hemp : junkL 0 ++ mk.take 0 = ([] : Str) := rfl
      rw [hemp, splitDM_nil,
        procSegs_cons_cont parse allowed [] (processSegment_empty parse allowed st),
        procSegs_nil]
      refine ⟨0, junkL q0, ?_, ?_⟩
      · rw [List.take_zero, List.foldl_nil, ← hq0, withPartial_self]
      · exact Or.inr (Or.inl ⟨r, todo2, 0, q0, rfl, by omega, by simp, rfl⟩)
    · have hVne : junkL q ++ mk.take t ≠ [] := by
        have hlen : (junkL q ++ mk.take t).length = q + t := by
          rw [List.length_append, junkL_length, List.length_take]
          have hm : mk.length = 6 := rfl
          omega
        intro hx
        rw [hx] at hlen
        simp at hlen
        omega
      have hsingle : splitAfter (junkL q ++ mk.take t) = (junkL q ++ mk.take t, []) := by
        apply splitAfter_noSplit
        apply junk_decomp_wrap q (mk.take t) (prefixOfB_mk_mk_take ht5)
        intro u v h
        exact (no_nl_decomp (fun hm => nlc_not_mem_mk (List.mem_of_mem_take hm)) h).elim
      have hPF := prefixOfB_mk_junk_append q (prefixOfB_mk_mk_take ht5)
      have hparse : parse (jsTrim (junkL q ++ mk.take t)) = none := by
        rcases Nat.eq_zero_or_pos t with ht0 | htpos
        · subst ht0
          rw [show (mk.take 0 : Str) = [] from rfl, List.append_nil, jsTrim_junk]
          exact hP.1
        · rw [jsTrim_junk_append, jsTrim_mk_take htpos ht5]
          exact hP.2 t htpos ht5
      rw [splitDM_neg hPF, hsingle,
        procSegs_cons_cont parse allowed []
          (processSegment_fail parse allowed st hVne (segDone_junk_mk q t ht5) hparse),
        procSegs_nil]
      refine ⟨0, junkL q ++ mk.take t, rfl, ?_⟩
      exact Or.inr (Or.inl ⟨r, todo2, t, q, rfl, ht5, rfl, rfl⟩)
  · -- the chunk covers the whole next marker
    obtain ⟨hmk6, hY⟩ := append_eq_of_le hV1.symm (by
      have hm : mk.length = 6 := rfl
      omega)
    have hm6 : mk.length = 6 := rfl
    rw [hm6] at hmk6 hY
    obtain ⟨V2, hV1e, hV2⟩ :
        ∃ V2, V1 = mk ++ V2 ∧ V2 ++ rem2 = r ++ nlc :: streamOf todo2 :=
      ⟨V1.drop 6, by
        calc V1 = V1.take 6 ++ V1.drop 6 := (List.take_append_drop _ _).symm
        _ = mk ++ V1.drop 6 := by rw [← hmk6], hY.symm⟩
    subst hV1e
    have hV2PF : prefixOfB mk V2 = false := by
      cases hE : prefixOfB mk V2
      · rfl
      · exfalso
        have hp : mk <+: V2 := (prefixOfB_iff _ _).mp hE
        have hp2 : mk <+: r ++ nlc :: streamOf todo2 := by
          rw [← hV2]
          exact hp.trans (List.prefix_append V2 rem2)
        have hfalse := prefixOfB_mk_append_false r (nlc :: streamOf todo2)
          hr.2.2.2.2.1 hr.2.2.2.1
        rw [(prefixOfB_iff _ _).mpr hp2] at hfalse
        cases hfalse
    rcases q with _ | q2
    · have h0 : junkL 0 ++ (mk ++ V2) = mk ++ V2 := by
        rw [junkL_zero, List.nil_append]
      rw [h0]
      have hpos : prefixOfB mk (mk ++ V2) = true := prefixOfB_self_append mk V2
      have hdrop : (mk ++ V2).drop 6 = V2 := by
        rw [show (6 : Nat) = mk.length from rfl]
        exact List.drop_left mk V2
      have hrun : procSegs parse allowed st (splitDM (mk ++ V2)) =
          procSegs parse allowed st (splitDM V2) := by
        rw [splitDM_pos hpos, hdrop,
          procSegs_cons_cont parse allowed _ (processSegment_empty parse allowed st),
          ← splitDM_neg hV2PF]
      rw [hrun]
      have hCR := procChunkR parse allowed hP todo2 hrest r hr 0 V2 rem2 hV2 st q0 hq0
      rw [junkL_zero, List.nil_append] at hCR
      exact hCR
    · have hform : junkL (q2 + 1) ++ (mk ++ V2) = junkL q2 ++ (nlc :: (mk ++ V2)) := by
        rw [← junkL_snoc, List.append_assoc]
        rfl
      have hx : ∀ u v, junkL q2 = u ++ nlc :: v →
          prefixOfB mk (v ++ nlc :: (mk ++ V2)) = false := by
        intro u v h
        rcases v with _ | ⟨c, v2⟩
        · rw [List.nil_append]
          exact prefixOfB_mk_nl _
        · have hc : c = nlc := mem_junkL (by
            rw [h]
            exact List.mem_append_right u (List.mem_cons_of_mem nlc (List.mem_cons_self c v2)))
          rw [List.cons_append, hc]
          exact prefixOfB_mk_nl _
      have hPF : prefixOfB mk (junkL (q2 + 1) ++ (mk ++ V2)) = false := by
        rw [junkL_succ, List.cons_append]
        exact prefixOfB_mk_nl _
      have hVne : junkL q2 ++ [nlc] ≠ [] := by
        intro hx2
        rw [List.append_eq_nil] at hx2
        cases hx2.2
      have hfirst : processSegment parse allowed st (junkL q2 ++ [nlc]) =
          .cont { st with partialChunk := junkL q2 ++ [nlc] } :=
        processSegment_fail parse allowed st hVne
          (by rw [junkL_snoc]; exact segDone_junk (q2 + 1))
          (by rw [junkL_snoc, jsTrim_junk]; exact hP.1)
      have hrun : procSegs parse allowed st (splitDM (junkL (q2 + 1) ++ (mk ++ V2))) =
          procSegs parse allowed { st with partialChunk := junkL q2 ++ [nlc] }
            (splitDM V2) := by
        rw [splitDM_neg hPF, hform, splitAfter_split (junkL q2) V2 hx]
        dsimp only
        rw [procSegs_cons_cont parse allowed _ hfirst, ← splitDM_neg hV2PF]
      have hCR := procChunkR parse allowed hP todo2 hrest r hr 0 V2 rem2 hV2
        { st with partialChunk := junkL q2 ++ [nlc] } (q2 + 1)
        (by show junkL q2 ++ [nlc] = junkL (q2 + 1); exact junkL_snoc q2)
      rw [junkL_zero, List.nil_append] at hCR
      obtain ⟨k2, P, hout, hshape⟩ := hCR
      refine ⟨k2, P, ?_, hshape⟩
      rw [hrun, hout]
      congr 1
      have hc := foldl_recordStep_congr parse ((r :: todo2).take k2)
        { st with partialChunk := junkL q2 ++ [nlc] } st rfl rfl rfl rfl
      exact withPartial_ext P
        (by rw [foldl_recordStep_raw, foldl_recordStep_raw])
        hc.1 hc.2.1 hc.2.2.1
        (by rw [foldl_recordStep_chunkIndex, foldl_recordStep_chunkIndex])
        hc.2.2.2

/-- Processing a pure-junk chunk: it fails to parse and dangles whole. -/
theorem procChunkJunk (parse : Str → Option Json) (allowed : Option (List Str))
    (hP : WFParse parse) (v : Nat) (hv : 1 ≤ v) (st : AccState) :
    procSegs parse allowed st (splitDM (junkL v)) =
      .cont { st with partialChunk := junkL v } := by
  have hns : ∀ u w, junkL v = u ++ nlc :: w → prefixOfB mk w = false := by
    intro u w h
    rcases w with _ | ⟨c, w2⟩
    · exact prefixOfB_mk_nil
    · have hc : c = nlc := mem_junkL (by
        rw [h]
        exact List.mem_append_right u (List.mem_cons_of_mem nlc (List.mem_cons_self c w2)))
      rw [hc]
      exact prefixOfB_mk_nl _
  have hPF : prefixOfB mk (junkL v) = false := by
    have h2 := prefixOfB_mk_junk_append v (w := []) prefixOfB_mk_nil
    simpa using h2
  have hne : junkL v ≠ [] := by
    intro hx
    have hl := junkL_length v
    rw [hx] at hl
    simp at hl
    omega
  rw [splitDM_neg hPF, splitAfter_noSplit (junkL v) hns,
    procSegs_cons_cont parse allowed []
      (processSegment_fail parse allowed st hne (segDone_junk v)
        (by rw [jsTrim_junk]; exact hP.1)),
    procSegs_nil]

/-- Transport of a chunk contract into the whole-run invariant. -/
theorem chunkOut_to_inv (parse : Str → Option Json) (rs : List Str) (k : Nat)
    (st0 : AccState) (rem2 : Str) (out : SegStep)
    (hpara : st0.paragraph = ((rs.take k).foldl (recordStep parse) initAccState).paragraph)
    (hname : st0.functionCallName =
      ((rs.take k).foldl (recordStep parse) initAccState).functionCallName)
    (hargs : st0.functionCallArgs =
      ((rs.take k).foldl (recordStep parse) initAccState).functionCallArgs)
    (htrace : st0.trace = ((rs.take k).foldl (recordStep parse) initAccState).trace)
    (hCO : ChunkOut parse st0 (rs.drop k) rem2 out) :
    ∃ st2, out = .cont st2 ∧ StreamInv parse rs st2 rem2 := by
  obtain ⟨k2, P, hout, hshape⟩ := hCO
  refine ⟨withPartial (((rs.drop k).take k2).foldl (recordStep parse) st0) P, hout,
    k + k2, ?_, ?_, ?_, ?_, ?_⟩
  · show (((rs.drop k).take k2).foldl (recordStep parse) st0).paragraph = _
    have hc := foldl_recordStep_congr parse ((rs.drop k).take k2) st0
      ((rs.take k).foldl (recordStep parse) initAccState) hpara hname hargs htrace
    rw [hc.1, List.take_add, List.foldl_append]
  · show (((rs.drop k).take k2).foldl (recordStep parse) st0).functionCallName = _
    have hc := foldl_recordStep_congr parse ((rs.drop k).take k2) st0
      ((rs.take k).foldl (recordStep parse) initAccState) hpara hname hargs htrace
    rw [hc.2.1, List.take_add, List.foldl_append]
  · show (((rs.drop k).take k2).foldl (recordStep parse) st0).functionCallArgs = _
    have hc := foldl_recordStep_congr parse ((rs.drop k).take k2) st0
      ((rs.take k).foldl (recordStep parse) initAccState) hpara hname hargs htrace
    rw [hc.2.2.1, List.take_add, List.foldl_append]
  · show (((rs.drop k).take k2).foldl (recordStep parse) st0).trace = _
    have hc := foldl_recordStep_congr parse ((rs.drop k).take k2) st0
      ((rs.take k).foldl (recordStep parse) initAccState) hpara hname hargs htrace
    rw [hc.2.2.2, List.take_add, List.foldl_append]
  · show ShapeP (rs.drop (k + k2)) rem2 P
    rw [List.drop_drop] at hshape
    exact hshape

/-- Unfolding of one buffer read. -/
theorem processBuffer_eq (parse : Str → Option Json) (allowed : Option (List Str))
    (st : AccState) (b : Str) :
    processBuffer parse allowed st b =
      procSegs parse allowed
        { st with chunkIndex := st.chunkIndex + 1,
                  rawStreamedBody := st.rawStreamedBody ++ b ++ [nlc],
                  partialChunk := [] }
        (splitDM (st.partialChunk ++ b)) := rfl

/-- One network read preserves the streaming invariant. -/
theorem bufferStep (parse : Str → Option Json) (allowed : Option (List Str))
    (hP : WFParse parse) (rs : List Str)
    (hWF : ∀ r2 ∈ rs, WFRecord parse r2) (st : AccState) (rem b rem2 : Str)
    (hInv : StreamInv parse rs st rem) (hrem : rem = b ++ rem2) :
    ∃ st2, processBuffer parse allowed st b = .cont st2 ∧
      StreamInv parse rs st2 rem2 := by
  obtain ⟨k, hpara, hname, hargs, htrace, hshape⟩ := hInv
  rw [processBuffer_eq]
  rcases hshape with ⟨hdropA, hremnil, qA, hPA⟩ |
    ⟨r, rest2, t, qB, hdropB, ht5, hPB, hWB⟩ |
    ⟨r, rest2, sC, qC, hdropC, hsC, hPC, hWC⟩ |
    ⟨r, r2, rest3, t, qD, hdropD, ht1, ht5, hPD, hWD⟩ |
    ⟨hWE, qE, hPE⟩
  · -- Shape A: stream exhausted, only stale junk held
    obtain ⟨hb, hr2⟩ := List.append_eq_nil.mp (hrem.symm.trans hremnil)
    subst hb
    subst hr2
    rw [hPA]
    simp only [List.append_nil]
    rcases qA with _ | v
    · rw [show junkL 0 = ([] : Str) from rfl, splitDM_nil,
        procSegs_cons_cont parse allowed [] (processSegment_empty parse allowed _),
        procSegs_nil]
      refine ⟨_, rfl, k, hpara, hname, hargs, htrace, ?_⟩
      exact Or.inl ⟨hdropA, rfl, 0, rfl⟩
    · rw [procChunkJunk parse allowed hP (v + 1) (by omega) _]
      refine ⟨_, rfl, k, hpara, hname, hargs, htrace, ?_⟩
      exact Or.inl ⟨hdropA, rfl, v + 1, rfl⟩
  · -- Shape B: inside the next record's marker
    have hrW : ∀ r2 ∈ rs.drop k, WFRecord parse r2 :=
      fun r2 hm => hWF r2 (List.mem_of_mem_drop hm)
    have hrB : WFRecord parse r := hrW r (by rw [hdropB]; exact List.mem_cons_self r rest2)
    have hrestB : ∀ r2 ∈ rest2, WFRecord parse r2 :=
      fun r2 hm => hrW r2 (by rw [hdropB]; exact List.mem_cons_of_mem r hm)
    rw [hPB]
    have hVeq : ((junkL qB ++ mk.take t) ++ b) ++ rem2 =
        junkL qB ++ streamOf (r :: rest2) := by
      rw [streamOf_cons]
      calc ((junkL qB ++ mk.take t) ++ b) ++ rem2
          = junkL qB ++ (mk.take t ++ (b ++ rem2)) := by simp [List.append_assoc]
        _ = junkL qB ++ (mk.take t ++ (mk.drop t ++ (r ++ nlc :: streamOf rest2))) := by
            rw [← hrem, hWB]
        _ = junkL qB ++ ((mk.take t ++ mk.drop t) ++ (r ++ nlc :: streamOf rest2)) := by
            rw [List.append_assoc]
        _ = junkL qB ++ (mk ++ (r ++ nlc :: streamOf rest2)) := by
            rw [List.take_append_drop]
    have hky : qB ≤ ((junkL qB ++ mk.take t) ++ b).length := by
      rw [List.length_append, List.length_append, junkL_length]
      omega
    have hCO := procChunkN parse allowed hP r rest2 hrestB hrB qB _ rem2 hVeq hky
      { st with chunkIndex := st.chunkIndex + 1,
                rawStreamedBody := st.rawStreamedBody ++ b ++ [nlc],
                partialChunk := [] } 0 rfl
    rw [← hdropB] at hCO
    exact chunkOut_to_inv parse rs k
      { st with chunkIndex := st.chunkIndex + 1,
                rawStreamedBody := st.rawStreamedBody ++ b ++ [nlc],
                partialChunk := [] } rem2 _ hpara hname hargs htrace hCO
  · -- Shape C: inside the current record
    have hrW : ∀ r2 ∈ rs.drop k, WFRecord parse r2 :=
      fun r2 hm => hWF r2 (List.mem_of_mem_drop hm)
    have hrC : WFRecord parse r := hrW r (by rw [hdropC]; exact List.mem_cons_self r rest2)
    have hrestC : ∀ r2 ∈ rest2, WFRecord parse r2 :=
      fun r2 hm => hrW r2 (by rw [hdropC]; exact List.mem_cons_of_mem r hm)
    rw [hPC, show (junkL qC ++ r.take sC) ++ b = junkL qC ++ (r.take sC ++ b) from
      List.append_assoc _ _ _]
    have hVeq : (r.take sC ++ b) ++ rem2 = r ++ nlc :: streamOf rest2 := by
      calc (r.take sC ++ b) ++ rem2
          = r.take sC ++ (b ++ rem2) := by rw [List.append_assoc]
        _ = r.take sC ++ (r.drop sC ++ nlc :: streamOf rest2) := by rw [← hrem, hWC]
        _ = (r.take sC ++ r.drop sC) ++ nlc :: streamOf rest2 := by rw [List.append_assoc]
        _ = r ++ nlc :: streamOf rest2 := by rw [List.take_append_drop]
    have hCO := procChunkR parse allowed hP rest2 hrestC r hrC qC _ rem2 hVeq
      { st with chunkIndex := st.chunkIndex + 1,
                rawStreamedBody := st.rawStreamedBody ++ b ++ [nlc],
                partialChunk := [] } 0 rfl
    rw [← hdropC] at hCO
    exact chunkOut_to_inv parse rs k
      { st with chunkIndex := st.chunkIndex + 1,
                rawStreamedBody := st.rawStreamedBody ++ b ++ [nlc],
                partialChunk := [] } rem2 _ hpara hname hargs htrace hCO
  · -- Shape D: record and marker dangle held
    have hrW : ∀ r3 ∈ rs.drop k, WFRecord parse r3 :=
      fun r3 hm => hWF r3 (List.mem_of_mem_drop hm)
    have hrD : WFRecord parse r :=
      hrW r (by rw [hdropD]; exact List.mem_cons_self r (r2 :: rest3))
    have hrestD : ∀ r3 ∈ r2 :: rest3, WFRecord parse r3 :=
      fun r3 hm => hrW r3 (by rw [hdropD]; exact List.mem_cons_of_mem r hm)
    rw [hPD, show (junkL qD ++ (r ++ nlc :: mk.take t)) ++ b =
      junkL qD ++ ((r ++ nlc :: mk.take t) ++ b) from List.append_assoc _ _ _]
    have hVeq : ((r ++ nlc :: mk.take t) ++ b) ++ rem2 =
        r ++ nlc :: streamOf (r2 :: rest3) := by
      rw [streamOf_cons]
      calc ((r ++ nlc :: mk.take t) ++ b) ++ rem2
          = r ++ nlc :: (mk.take t ++ (b ++ rem2)) := by simp [List.append_assoc]
        _ = r ++ nlc :: (mk.take t ++ (mk.drop t ++ (r2 ++ nlc :: streamOf rest3))) := by
            rw [← hrem, hWD]
        _ = r ++ nlc :: ((mk.take t ++ mk.drop t) ++ (r2 ++ nlc :: streamOf rest3)) := by
            rw [List.append_assoc]
        _ = r ++ nlc :: (mk ++ (r2 ++ nlc :: streamOf rest3)) := by
            rw [List.take_append_drop]
    have hCO := procChunkR parse allowed hP (r2 :: rest3) hrestD r hrD qD _ rem2 hVeq
      { st with chunkIndex := st.chunkIndex + 1,
                rawStreamedBody := st.rawStreamedBody ++ b ++ [nlc],
                partialChunk := [] } 0 rfl
    rw [← hdropD] at hCO
    exact chunkOut_to_inv parse rs k
      { st with chunkIndex := st.chunkIndex + 1,
                rawStreamedBody := st.rawStreamedBody ++ b ++ [nlc],
                partialChunk := [] } rem2 _ hpara hname hargs htrace hCO
  · -- Shape E: before the record-closing newline
    rcases b with _ | ⟨c, b2⟩
    · rw [List.nil_append] at hrem
      rw [hPE]
      rcases qE with _ | v
      · simp only [junkL_zero, List.append_nil, List.nil_append]
        rw [splitDM_nil,
          procSegs_cons_cont parse allowed [] (processSegment_empty parse allowed _),
          procSegs_nil]
        refine ⟨_, rfl, k, hpara, hname, hargs, htrace, ?_⟩
        refine Or.inr (Or.inr (Or.inr (Or.inr ⟨?_, 0, rfl⟩)))
        rw [← hrem]
        exact hWE
      · simp only [List.append_nil]
        rw [procChunkJunk parse allowed hP (v + 1) (by omega) _]
        refine ⟨_, rfl, k, hpara, hname, hargs, htrace, ?_⟩
        refine Or.inr (Or.inr (Or.inr (Or.inr ⟨?_, v + 1, rfl⟩)))
        rw [← hrem]
        exact hWE
    · have h2 : (c :: b2) ++ rem2 = nlc :: streamOf (rs.drop k) := by rw [← hrem, hWE]
      rw [List.cons_append] at h2
      have h3 := (List.cons.injEq _ _ _ _).mp h2
      obtain ⟨hc, hb2⟩ := h3
      subst hc
      rw [hPE]
      have hchunk : junkL qE ++ (nlc :: b2) = junkL (qE + 1) ++ b2 := by
        rw [← junkL_snoc, List.append_assoc]
        rfl
      rw [hchunk]
      rcases hdropE : rs.drop k with _ | ⟨r, rest2⟩
      · rw [hdropE, streamOf_nil] at hb2
        obtain ⟨hb2n, hr2n⟩ := List.append_eq_nil.mp hb2
        subst hb2n
        subst hr2n
        simp only [List.append_nil]
        rw [procChunkJunk parse allowed hP (qE + 1) (by omega) _]
        refine ⟨_, rfl, k, hpara, hname, hargs, htrace, ?_⟩
        exact Or.inl ⟨hdropE, rfl, qE + 1, rfl⟩
      · have hrW : ∀ r3 ∈ rs.drop k, WFRecord parse r3 :=
          fun r3 hm => hWF r3 (List.mem_of_mem_drop hm)
        have hrE : WFRecord parse r :=
          hrW r (by rw [hdropE]; exact List.mem_cons_self r rest2)
        have hrestE : ∀ r3 ∈ rest2, WFRecord parse r3 :=
          fun r3 hm => hrW r3 (by rw [hdropE]; exact List.mem_cons_of_mem r hm)
        have hVeq : (junkL (qE + 1) ++ b2) ++ rem2 =
            junkL (qE + 1) ++ streamOf (r :: rest2) := by
          rw [List.append_assoc, hb2, hdropE]
        have hky : qE + 1 ≤ (junkL (qE + 1) ++ b2).length := by
          rw [List.length_append, junkL_length]
          omega
        have hCO := procChunkN parse allowed hP r rest2 hrestE hrE (qE + 1) _ rem2 hVeq hky
          { st with chunkIndex := st.chunkIndex + 1,
                    rawStreamedBody := st.rawStreamedBody ++ (nlc :: b2) ++ [nlc],
                    partialChunk := [] } 0 rfl
        rw [← hdropE] at hCO
        exact chunkOut_to_inv parse rs k
          { st with chunkIndex := st.chunkIndex + 1,
                    rawStreamedBody := st.rawStreamedBody ++ (nlc :: b2) ++ [nlc],
                    partialChunk := [] } rem2 _ hpara hname hargs htrace hCO

/-- The whole run over any buffer sequence keeps the invariant and exhausts. -/
theorem runStream_inv (parse : Str → Option Json) (allowed : Option (List Str))
    (hP : WFParse parse) (rs : List Str)
    (hWF : ∀ r2 ∈ rs, WFRecord parse r2) :
    ∀ (bs : List Str) (st : AccState) (rem : Str),
      StreamInv parse rs st rem → rem = bs.flatten →
      ∃ stF, runStream parse allowed st bs = .exhausted stF ∧
        StreamInv parse rs stF [] := by
  intro bs
  induction bs with
  | nil =>
    intro st rem hInv hrem
    rw [List.flatten_nil] at hrem
    subst hrem
    exact ⟨st, rfl, hInv⟩
  | cons b bs2 ih =>
    intro st rem hInv hrem
    rw [List.flatten_cons] at hrem
    obtain ⟨st2, hcont, hInv2⟩ :=
      bufferStep parse allowed hP rs hWF st rem b bs2.flatten hInv hrem
    have hrun : runStream parse allowed st (b :: bs2) =
        runStream parse allowed st2 bs2 := by
      show (match processBuffer parse allowed st b with
        | SegStep.halt r => StreamRun.halted r st
        | SegStep.cont st3 => runStream parse allowed st3 bs2) = _
      rw [hcont]
    rw [hrun]
    exact ih st2 bs2.flatten hInv2 rfl

/-- When the invariant holds with nothing left to read, every record has been
processed and the semantic fields equal the canonical fold. -/
theorem streamInv_final (parse : Str → Option Json) (rs : List Str) (stF : AccState)
    (hInv : StreamInv parse rs stF []) :
    stF.paragraph = (rs.foldl (recordStep parse) initAccState).paragraph ∧
    stF.functionCallName = (rs.foldl (recordStep parse) initAccState).functionCallName ∧
    stF.functionCallArgs = (rs.foldl (recordStep parse) initAccState).functionCallArgs ∧
    stF.trace = (rs.foldl (recordStep parse) initAccState).trace := by
  obtain ⟨k, hpara, hname, hargs, htrace, hshape⟩ := hInv
  have hdrop : rs.drop k = [] := by
    rcases hshape with ⟨h1, _, _⟩ | ⟨r, rest2, t, q, h1, ht5, hPB, hWB⟩ |
      ⟨r, rest2, s2, q, h1, hs, hPC, hWC⟩ |
      ⟨r, r2, rest3, t, q, h1, ht1, ht5, hPD, hWD⟩ | ⟨hWEe, _⟩
    · exact h1
    · exfalso
      obtain ⟨hmd, hrr⟩ := List.append_eq_nil.mp hWB.symm
      obtain ⟨hr1, hr2⟩ := List.append_eq_nil.mp hrr
      cases hr2
    · exfalso
      obtain ⟨hmd, hrr⟩ := List.append_eq_nil.mp hWC.symm
      cases hrr
    · exfalso
      obtain ⟨hmd, hrr⟩ := List.append_eq_nil.mp hWD.symm
      obtain ⟨hr1, hr2⟩ := List.append_eq_nil.mp hrr
      cases hr2
    · exact absurd hWEe.symm (List.cons_ne_nil _ _)
  have hk : rs.length ≤ k := List.drop_eq_nil_iff.mp hdrop
  have htk : rs.take k = rs := List.take_of_length_le hk
  rw [htk] at hpara hname hargs htrace
  exact ⟨hpara, hname, hargs, htrace⟩

/-- The invariant holds at the start against the whole stream. -/
theorem streamInv_init (parse : Str → Option Json) (rs : List Str) :
    StreamInv parse rs initAccState (streamOf rs) := by
  refine ⟨0, rfl, rfl, rfl, rfl, ?_⟩
  rcases rs with _ | ⟨r, rest⟩
  · exact Or.inl ⟨rfl, rfl, 0, rfl⟩
  · refine Or.inr (Or.inl ⟨r, rest, 0, 0, rfl, by omega, rfl, ?_⟩)
    rw [streamOf_cons, List.drop_zero]

/-- C1: for every byte stream forming a sequence of valid framed JSON records
(well-formed with respect to the `JSON.parse` oracle) and every way of
splitting that stream into successive network read buffers, including splits
mid-record, the streaming loop of `callOpenAIStream` accumulates exactly the
same ordered record sequence — the ghost trace of successfully parsed
records, and with it the accumulated text and function-call fragments — as
when the whole stream arrives as one buffer: trailing fragments are retained
in the partial-chunk buffer and prepended to the next read, never discarded,
and each record is parsed exactly once, in order. -/
theorem c1_chunk_framer_split_invariance (parse : Str → Option Json)
    (allowed : Option (List Str)) (rs : List Str) (bs : List Str)
    (hP : WFParse parse) (hWF : ∀ r ∈ rs, WFRecord parse r)
    (hflat : bs.flatten = streamOf rs) :
    ∃ stA stB,
      runStream parse allowed initAccState bs = .exhausted stA ∧
      runStream parse allowed initAccState [streamOf rs] = .exhausted stB ∧
      stA.paragraph = stB.paragraph ∧
      stA.functionCallName = stB.functionCallName ∧
      stA.functionCallArgs = stB.functionCallArgs ∧
      stA.trace = stB.trace ∧
      stA.trace = rs.filterMap parse := by
  obtain ⟨stA, hA, hIA⟩ := runStream_inv parse allowed hP rs hWF bs
    initAccState (streamOf rs) (streamInv_init parse rs) hflat.symm
  obtain ⟨stB, hB, hIB⟩ := runStream_inv parse allowed hP rs hWF [streamOf rs]
    initAccState (streamOf rs) (streamInv_init parse rs) (by simp)
  obtain ⟨hA1, hA2, hA3, hA4⟩ := streamInv_final parse rs stA hIA
  obtain ⟨hB1, hB2, hB3, hB4⟩ := streamInv_final parse rs stB hIB
  refine ⟨stA, stB, hA, hB, ?_, ?_, ?_, ?_, ?_⟩
  · rw [hA1, hB1]
  · rw [hA2, hB2]
  · rw [hA3, hB3]
  · rw [hA4, hB4]
  · rw [hA4, foldl_recordStep_trace]
    rfl

/-- Closed witness for C1: the two-record stream split mid-record across two
reads produces the same accumulated state and trace as the one-buffer
delivery. -/
theorem c1_chunk_framer_split_invariance_witness :
    WFParse c1Parse ∧ (∀ r ∈ c1Records, WFRecord c1Parse r) ∧
    c1Buffers.flatten = streamOf c1Records ∧
    (∃ stA stB,
      runStream c1Parse none initAccState c1Buffers = .exhausted stA ∧
      runStream c1Parse none initAccState [streamOf c1Records] = .exhausted stB ∧
      stA.paragraph = stB.paragraph ∧
      stA.functionCallName = stB.functionCallName ∧
      stA.functionCallArgs = stB.functionCallArgs ∧
      stA.trace = stB.trace ∧
      stA.trace = c1Records.filterMap c1Parse) := by
  have hP : WFParse c1Parse := ⟨rfl, by
    intro t h1 h2
    interval_cases t <;> rfl⟩
  have hWF : ∀ r ∈ c1Records, WFRecord c1Parse r := by
    intro r hm
    simp only [c1Records, List.mem_cons] at hm
    rcases hm with h | h | h
    case inr.inr => cases h
    · subst h
      refine ⟨by decide, by decide, rfl, rfl, rfl, rfl,
        ⟨Json.num 1, rfl, Or.inr rfl⟩, ?_, ?_⟩
      · intro s2 hs
        have hl : c1r1.length = 1 := rfl
        rw [hl] at hs
        have hs0 : s2 = 0 := by omega
        subst hs0
        rfl
      · intro t h1 h2
        interval_cases t <;> rfl
    · subst h
      refine ⟨by decide, by decide, rfl, rfl, rfl, rfl,
        ⟨Json.num 2, rfl, Or.inr rfl⟩, ?_, ?_⟩
      · intro s2 hs
        have hl : c1r2.length = 1 := rfl
        rw [hl] at hs
        have hs0 : s2 = 0 := by omega
        subst hs0
        rfl
      · intro t h1 h2
        interval_cases t <;> rfl
  have hflat : c1Buffers.flatten = streamOf c1Records := rfl
  exact ⟨hP, hWF, hflat,
    c1_chunk_framer_split_invariance c1Parse none c1Records c1Buffers hP hWF hflat⟩

end LLMUnify
